import Mathlib

/-!
Verification development for the tagstr repository.

The file embeds the two engines the specification covers — the Topic Index
(`NostrService.trackHashtagEvents` / `trackHashtagRelayDistribution` and
their read accessors) and the Endpoint Recommendation Engine
(`StandardRelayDiscovery` in `src/utils/relayDiscovery.ts`) — as executable
Lean definitions, and proves or refutes the frozen claims about them.

JavaScript `Map`s are modelled as association lists with `Map.set`'s
replace-in-place semantics, JavaScript `Set`s as duplicate-free lists with
`Set.add`'s append-if-absent semantics, and machine timestamps as `Int`
(the values involved stay far below 2^53, where JavaScript numbers are
exact integers).
-/

namespace Tagstr

/-- First value bound to key `k` in an association list; models `Map.get`
(the first binding wins, as association lists built by `listSet` never hold
a duplicate key). -/
def listGet {α : Type} (m : List (String × α)) (k : String) : Option α :=
  match m with
  | [] => none
  | (k1, v1) :: rest => if k1 = k then some v1 else listGet rest k

/-- Replace the first binding of `k` in place, or append a new binding at
the end; models `Map.set`, which keeps a rebound key at its original
insertion position. -/
def listSet {α : Type} (m : List (String × α)) (k : String) (v : α) : List (String × α) :=
  match m with
  | [] => [(k, v)]
  | (k1, v1) :: rest => if k1 = k then (k, v) :: rest else (k1, v1) :: listSet rest k v

/-- Append an element unless it is already present; models `Set.add` (and
the guarded `Array.push` used for the `sources` list). -/
def setAdd {α : Type} [DecidableEq α] (s : List α) (x : α) : List α :=
  if x ∈ s then s else s ++ [x]

/-- Characterwise ASCII lowercasing, the fragment of
`String.prototype.toLowerCase` the sources exercise. -/
def lowerChars (cs : List Char) : List Char := cs.map Char.toLower

/-- String wrapper around `lowerChars`; models `tag[1].toLowerCase()`. -/
def lowerStr (s : String) : String := String.mk (lowerChars s.data)

/-- Modelled from the spec: the result of the platform WHATWG `URL` parser,
which the repository helpers `isValidRelayUrl`, `normalizeRelayUrl`,
`isBlacklisted` and `isPreferredDomain` call but whose implementation is
the browser's, not the repository's. Only the fragment those helpers rely
on is modelled: absolute `scheme://host[:port][/rest]` URLs with the scheme
and host lowercased, the default `ws`/`wss`/`http`/`https` port elided and
the path defaulting to a single slash. Userinfo, IPv6 hosts,
percent-encoding and punycode are outside the model; a `none` parse models
the `URL` constructor throwing. -/
structure ParsedUrl where
  scheme : List Char
  host : List Char
  port : List Char
  path : List Char
deriving DecidableEq, Repr

/-- Characters legal in a URL scheme after the first letter. -/
def isSchemeChar (c : Char) : Bool :=
  c.isAlpha || c.isDigit || c == '+' || c == '-' || c == '.'

/-- Characters that terminate the authority component. -/
def isAuthorityStop (c : Char) : Bool :=
  c == '/' || c == '?' || c == '#'

/-- Default port of the special schemes the model covers, as elided by the
WHATWG serializer. -/
def defaultPortFor (scheme : List Char) : List Char :=
  if scheme = "ws".data then "80".data
  else if scheme = "wss".data then "443".data
  else if scheme = "http".data then "80".data
  else if scheme = "https".data then "443".data
  else []

/-- Modelled from the spec: core of the platform URL parser (see
`ParsedUrl`). -/
def parseUrlChars (cs : List Char) : Option ParsedUrl :=
  let schemeRaw := cs.takeWhile (fun c => ! (c == ':'))
  match schemeRaw, cs.drop schemeRaw.length with
  | c0 :: ctl, d1 :: d2 :: d3 :: rest =>
    if d1 = ':' ∧ d2 = '/' ∧ d3 = '/' ∧ c0.isAlpha ∧ (c0 :: ctl).all isSchemeChar then
      let scheme := lowerChars (c0 :: ctl)
      let authority := rest.takeWhile (fun c => ! isAuthorityStop c)
      let after := rest.drop authority.length
      let hostRaw := authority.takeWhile (fun c => ! (c == ':'))
      if hostRaw = [] then none
      else
        match authority.drop hostRaw.length with
        | [] =>
          some ⟨scheme, lowerChars hostRaw, [],
            match after with
            | [] => ['/']
            | c :: _ => if c = '/' then after else '/' :: after⟩
        | _ :: ds =>
          if ds.all Char.isDigit then
            some ⟨scheme, lowerChars hostRaw,
              (if ds = defaultPortFor scheme then [] else ds),
              match after with
              | [] => ['/']
              | c :: _ => if c = '/' then after else '/' :: after⟩
          else none
    else none
  | _, _ => none

/-- Modelled from the spec: the platform URL parser on strings. -/
def parseUrl (s : String) : Option ParsedUrl := parseUrlChars s.data

/-- Modelled from the spec: the WHATWG serializer (`url.toString()`) for the
modelled fragment. -/
def serializeUrl (p : ParsedUrl) : List Char :=
  p.scheme ++ ':' :: '/' :: '/' :: p.host
    ++ (if p.port = [] then [] else ':' :: p.port) ++ p.path

/-- One trailing slash removed, as `replace(/\x2f$/, '')` does. -/
def stripTrailingSlash (cs : List Char) : List Char :=
  if cs.getLast? = some '/' then cs.dropLast else cs

/-- Mirrors `isValidRelayUrl` (src helpers): the URL must parse and its
protocol must be `ws:` or `wss:`. -/
def isValidRelayUrl (url : String) : Bool :=
  match parseUrl url with
  | some p => p.scheme == "ws".data || p.scheme == "wss".data
  | none => false

/-- Mirrors `normalizeRelayUrl` (src helpers): reserialize the parsed URL
and strip one trailing slash; unparseable input is returned unchanged. -/
def normalizeRelayUrl (url : String) : String :=
  match parseUrl url with
  | some p => String.mk (stripTrailingSlash (serializeUrl p))
  | none => url

/-- The message record flowing through the system; mirrors the `NostrEvent`
interface of `NostrService.ts` (the `sig` field is never read by any
embedded operation and is omitted). -/
structure NostrEvent where
  id : String
  pubkey : String
  created_at : Int
  kind : Int
  tags : List (List String)
  content : String
deriving DecidableEq, Repr

/-- Truthiness test `tag[0] === 't' && tag[1]` from the hashtag
extraction. -/
def tagIsTopic (tag : List String) : Bool :=
  match tag with
  | t :: s :: _ => t == "t" && s != ""
  | _ => false

/-- The lowercased topic of a t-tag (`tag[1].toLowerCase()`). -/
def tagTopic (tag : List String) : String :=
  match tag with
  | _ :: s :: _ => lowerStr s
  | _ => ""

/-- Mirrors the hashtag extraction
`event.tags.filter(tag => tag[0] === 't' && tag[1]).map(tag => tag[1].toLowerCase())`
shared by `trackHashtagEvents` and `trackHashtagRelayDistribution`. -/
def eventHashtags (e : NostrEvent) : List String :=
  (e.tags.filter tagIsTopic).map tagTopic

/-- The Topic Index message table: hashtag to recent messages. -/
abbrev HashtagMap := List (String × List NostrEvent)

/-- The per-topic endpoint delivery counters. -/
abbrev DistMap := List (String × List (String × Nat))

/-- The new value of one topic's list in `NostrService.trackHashtagEvents`:
prepend the event unless its id is already present, then truncate past
100. -/
def touchList (e : NostrEvent) (events : List NostrEvent) : List NostrEvent :=
  let events := if events.any (fun x => x.id == e.id) then events else e :: events
  if 100 < events.length then events.take 100 else events

/-- One topic's update inside `NostrService.trackHashtagEvents`. -/
def hashtagEventsStep (e : NostrEvent) (m : HashtagMap) (h : String) : HashtagMap :=
  listSet m h (touchList e ((listGet m h).getD []))

/-- Mirrors `NostrService.trackHashtagEvents`. -/
def trackHashtagEvents (m : HashtagMap) (e : NostrEvent) : HashtagMap :=
  (eventHashtags e).foldl (hashtagEventsStep e) m

/-- Mirrors `NostrService.getHashtagEvents`. -/
def getHashtagEvents (m : HashtagMap) (hashtag : String) : List NostrEvent :=
  (listGet m (lowerStr hashtag)).getD []

/-- One topic's update inside `NostrService.trackHashtagRelayDistribution`:
increment the delivering relay's counter. -/
def hashtagDistStep (relayUrl : String) (m : DistMap) (h : String) : DistMap :=
  let relayDist := (listGet m h).getD []
  let relayDist := listSet relayDist relayUrl ((listGet relayDist relayUrl).getD 0 + 1)
  listSet m h relayDist

/-- Mirrors `NostrService.trackHashtagRelayDistribution`. -/
def trackHashtagRelayDistribution (m : DistMap) (e : NostrEvent) (relayUrl : String) : DistMap :=
  (eventHashtags e).foldl (hashtagDistStep relayUrl) m

/-- Mirrors `NostrService.getHashtagRelayDistribution`: the stored row, in
insertion order, or empty when the topic is unknown. -/
def getHashtagRelayDistribution (m : DistMap) (hashtag : String) : List (String × Nat) :=
  (listGet m (lowerStr hashtag)).getD []

/-- A whole run of `trackHashtagRelayDistribution` calls from the empty
table. -/
def runDeliveries (calls : List (NostrEvent × String)) : DistMap :=
  calls.foldl (fun m c => trackHashtagRelayDistribution m c.1 c.2) []

/-- A whole run of `trackHashtagEvents` calls from the empty table. -/
def runMessages (es : List NostrEvent) : HashtagMap :=
  es.foldl trackHashtagEvents []

/-- Count recorded for one endpoint in a distribution row. -/
def distCount (row : List (String × Nat)) (relayUrl : String) : Nat :=
  (listGet row relayUrl).getD 0

/-- Number of delivery increments a run performs for a (topic, endpoint)
pair: one per occurrence of the topic among the delivered message's t-tags
per call that named the endpoint. -/
def countDeliveries (calls : List (NostrEvent × String)) (topic relayUrl : String) : Nat :=
  (calls.map (fun c => if c.2 = relayUrl then (eventHashtags c.1).count topic else 0)).sum

/-- The character class `[a-z0-9]` of the NIP-19 entity pattern. -/
def isBech32Char (c : Char) : Bool := c.isLower || c.isDigit

/-- Helper for `matchNip19At`: one alternative of the group
`(profile|event|addr)` followed by the literal `1` and a nonempty
`[a-z0-9]+` body. -/
def tryEntityWord (w rest : List Char) : Option (List Char × List Char) :=
  if w.isPrefixOf rest then
    match rest.drop w.length with
    | '1' :: r2 =>
      let body := r2.takeWhile isBech32Char
      if body = [] then none
      else some ('n' :: (w ++ '1' :: body), r2.drop body.length)
    | _ => none
  else none

/-- Attempt the regex `n(profile|event|addr)1[a-z0-9]+` at the head of the
input, alternatives tried left to right as a regex engine does; on success
return the matched text and the remaining input. -/
def matchNip19At (cs : List Char) : Option (List Char × List Char) :=
  match cs with
  | 'n' :: rest =>
    match tryEntityWord "profile".data rest with
    | some r => some r
    | none =>
      match tryEntityWord "event".data rest with
      | some r => some r
      | none => tryEntityWord "addr".data rest
  | _ => none

/-- All non-overlapping matches of the NIP-19 entity pattern, scanning left
to right as `String.prototype.match` with a global regex does. The fuel
argument is an embedding artifact for termination; it is always passed the
input length plus one, which amply covers the scan. -/
def scanNip19 : Nat → List Char → List (List Char)
  | 0, _ => []
  | _, [] => []
  | fuel + 1, c :: cs =>
    match matchNip19At (c :: cs) with
    | some (m, rest) => m :: scanNip19 fuel rest
    | none => scanNip19 fuel cs

/-- The character class `[a-zA-Z0-9.-]` of the relay-URL regex. -/
def isUrlHostChar (c : Char) : Bool := c.isAlpha || c.isDigit || c == '.' || c == '-'

/-- ASCII fragment of the JavaScript whitespace class `\s`. -/
def isJsSpace (c : Char) : Bool :=
  c == ' ' || c == '\t' || c == '\n' || c == '\r' || c.toNat == 12 || c.toNat == 11

/-- Helper for `matchUrlAt`: the part of the relay-URL regex after the
`ws`/`wss` scheme alternative — `://`, a nonempty host-character run, an
optional `:digits` port and an optional slash-led non-space tail. -/
def matchUrlTail (pre rest : List Char) : Option (List Char × List Char) :=
  match rest with
  | ':' :: '/' :: '/' :: r2 =>
    let hostPart := r2.takeWhile isUrlHostChar
    if hostPart = [] then none
    else
      let r3 := r2.drop hostPart.length
      let portAndRest : List Char × List Char :=
        match r3 with
        | ':' :: pr =>
          let ds := pr.takeWhile Char.isDigit
          if ds = [] then ([], r3) else (':' :: ds, pr.drop ds.length)
        | _ => ([], r3)
      let pathAndRest : List Char × List Char :=
        match portAndRest.2 with
        | '/' :: pr =>
          let ps := pr.takeWhile (fun c => ! isJsSpace c)
          ('/' :: ps, pr.drop ps.length)
        | _ => ([], portAndRest.2)
      some (pre ++ ':' :: '/' :: '/' :: hostPart ++ portAndRest.1 ++ pathAndRest.1,
        pathAndRest.2)
  | _ => none

/-- Attempt the relay-URL regex
`wss?:\x2f\x2f[a-zA-Z0-9.-]+(?::[0-9]+)?(?:\x2f[^\s]*)?` at the head of the
input; the optional `s` is tried greedily first, as a regex engine does. -/
def matchUrlAt (cs : List Char) : Option (List Char × List Char) :=
  match cs with
  | 'w' :: 's' :: 's' :: rest =>
    match matchUrlTail "wss".data rest with
    | some r => some r
    | none => matchUrlTail "ws".data ('s' :: rest)
  | 'w' :: 's' :: rest => matchUrlTail "ws".data rest
  | _ => none

/-- All non-overlapping matches of the relay-URL regex, scanning left to
right; fuel as in `scanNip19`. -/
def scanUrls : Nat → List Char → List (List Char)
  | 0, _ => []
  | _, [] => []
  | fuel + 1, c :: cs =>
    match matchUrlAt (c :: cs) with
    | some (m, rest) => m :: scanUrls fuel rest
    | none => scanUrls fuel cs

/-- The trailing-punctuation class `[.,;:!?)]` stripped from matched URLs. -/
def isTrailPunct (c : Char) : Bool :=
  c == '.' || c == ',' || c == ';' || c == ':' || c == '!' || c == '?' || c == ')'

/-- One trailing punctuation character removed, as
`url.replace(/[.,;:!?)]$/, '')` does. -/
def stripTrailingPunct (cs : List Char) : List Char :=
  match cs.getLast? with
  | some c => if isTrailPunct c then cs.dropLast else cs
  | none => cs

/-- Mirrors `parseNip19RelayHints` (relayDiscovery.ts): on a candidate
bech32 entity string starting with `n`, regex-extract `ws://`/`wss://`
URLs, strip one trailing punctuation character, validate and normalize. -/
def parseNip19RelayHints (bech32String : String) : List String :=
  if bech32String.data.head? ≠ some 'n' then []
  else
    (scanUrls (bech32String.data.length + 1) bech32String.data).foldl
      (fun relays m =>
        let cleanUrl := String.mk (stripTrailingPunct m)
        if isValidRelayUrl cleanUrl then relays ++ [normalizeRelayUrl cleanUrl]
        else relays) []

/-- Mirrors `extractNip19RelayHints`: find NIP-19 entity tokens in the
content and collect the relay URLs extracted from each into a set. -/
def extractNip19RelayHints (content : String) : List String :=
  (scanNip19 (content.data.length + 1) content.data).foldl
    (fun relays ent => (parseNip19RelayHints (String.mk ent)).foldl setAdd relays) []

/-- Modelled from the spec: the value universe of the platform `JSON.parse`,
which `processContactEvent` calls on legacy contact content but whose
implementation is the platform's, not the repository's. Numbers keep their
lexeme, as their numeric value is never read by the embedded code. -/
inductive Json where
  | jnull : Json
  | jbool : Bool → Json
  | jnum : String → Json
  | jstr : String → Json
  | jarr : List Json → Json
  | jobj : List (String × Json) → Json

/-- JSON insignificant whitespace. -/
def isJsonWs (c : Char) : Bool := c == ' ' || c == '\t' || c == '\n' || c == '\r'

/-- Value of one hexadecimal digit in a `\u` escape. -/
def jsonHexVal (c : Char) : Option Nat :=
  if c.isDigit then some (c.toNat - 48)
  else if 'a' ≤ c ∧ c ≤ 'f' then some (c.toNat - 87)
  else if 'A' ≤ c ∧ c ≤ 'F' then some (c.toNat - 55)
  else none

/-- Modelled from the spec: the JSON string-body grammar after the opening
quote (escape sequences decoded; a lone surrogate escape decodes to the
null replacement like `Char.ofNat`, a divergence no claim touches). -/
def parseJsonStringChars : List Char → Option (List Char × List Char)
  | [] => none
  | '"' :: rest => some ([], rest)
  | '\\' :: '"' :: rest => (parseJsonStringChars rest).map fun p => ('"' :: p.1, p.2)
  | '\\' :: '\\' :: rest => (parseJsonStringChars rest).map fun p => ('\\' :: p.1, p.2)
  | '\\' :: '/' :: rest => (parseJsonStringChars rest).map fun p => ('/' :: p.1, p.2)
  | '\\' :: 'b' :: rest => (parseJsonStringChars rest).map fun p => (Char.ofNat 8 :: p.1, p.2)
  | '\\' :: 'f' :: rest => (parseJsonStringChars rest).map fun p => (Char.ofNat 12 :: p.1, p.2)
  | '\\' :: 'n' :: rest => (parseJsonStringChars rest).map fun p => ('\n' :: p.1, p.2)
  | '\\' :: 'r' :: rest => (parseJsonStringChars rest).map fun p => (Char.ofNat 13 :: p.1, p.2)
  | '\\' :: 't' :: rest => (parseJsonStringChars rest).map fun p => ('\t' :: p.1, p.2)
  | '\\' :: 'u' :: h1 :: h2 :: h3 :: h4 :: rest =>
    (match jsonHexVal h1, jsonHexVal h2, jsonHexVal h3, jsonHexVal h4 with
     | some a, some b, some c, some d =>
       (parseJsonStringChars rest).map fun p =>
         (Char.ofNat (4096 * a + 256 * b + 16 * c + d) :: p.1, p.2)
     | _, _, _, _ => none)
  | '\\' :: _ => none
  | c :: rest =>
    if c.toNat < 32 then none
    else (parseJsonStringChars rest).map fun p => (c :: p.1, p.2)

/-- Exponent digits of a JSON number (helper for `parseJsonNumberChars`). -/
def jsonExpDigits (e rest : List Char) : Option (List Char × List Char) :=
  let sgAndRest : List Char × List Char :=
    match rest with
    | '+' :: r => (['+'], r)
    | '-' :: r => (['-'], r)
    | _ => ([], rest)
  let ds := sgAndRest.2.takeWhile Char.isDigit
  if ds = [] then none
  else some (e ++ sgAndRest.1 ++ ds, sgAndRest.2.drop ds.length)

/-- Modelled from the spec: the JSON number grammar; the lexeme is kept. -/
def parseJsonNumberChars (cs : List Char) : Option (List Char × List Char) :=
  let signAndRest : List Char × List Char :=
    match cs with
    | '-' :: r => (['-'], r)
    | _ => ([], cs)
  let intAndRest : Option (List Char × List Char) :=
    match signAndRest.2 with
    | '0' :: r => some (['0'], r)
    | c :: _ =>
      if c.isDigit then
        let ds := signAndRest.2.takeWhile Char.isDigit
        some (ds, signAndRest.2.drop ds.length)
      else none
    | [] => none
  match intAndRest with
  | none => none
  | some (ip, r1) =>
    let fracAndRest : Option (List Char × List Char) :=
      match r1 with
      | '.' :: r =>
        let ds := r.takeWhile Char.isDigit
        if ds = [] then none else some ('.' :: ds, r.drop ds.length)
      | _ => some ([], r1)
    match fracAndRest with
    | none => none
    | some (fp, r2) =>
      let expAndRest : Option (List Char × List Char) :=
        match r2 with
        | 'e' :: r => jsonExpDigits ['e'] r
        | 'E' :: r => jsonExpDigits ['E'] r
        | _ => some ([], r2)
      match expAndRest with
      | none => none
      | some (ep, r3) => some (signAndRest.1 ++ ip ++ fp ++ ep, r3)

mutual

/-- Modelled from the spec: the platform `JSON.parse` value grammar; the
fuel argument is an embedding artifact for termination and is always passed
a bound amply covering the recursion. Duplicate object keys follow the
platform's last-write-wins-in-place rule via `listSet`. -/
def parseJsonValue : Nat → List Char → Option (Json × List Char)
  | 0, _ => none
  | fuel + 1, cs =>
    match cs.dropWhile isJsonWs with
    | 'n' :: 'u' :: 'l' :: 'l' :: rest => some (Json.jnull, rest)
    | 't' :: 'r' :: 'u' :: 'e' :: rest => some (Json.jbool true, rest)
    | 'f' :: 'a' :: 'l' :: 's' :: 'e' :: rest => some (Json.jbool false, rest)
    | '"' :: rest => (parseJsonStringChars rest).map fun p => (Json.jstr (String.mk p.1), p.2)
    | '[' :: rest =>
      (match rest.dropWhile isJsonWs with
       | ']' :: r2 => some (Json.jarr [], r2)
       | r2 => parseJsonItems fuel r2 [])
    | '{' :: rest =>
      (match rest.dropWhile isJsonWs with
       | '}' :: r2 => some (Json.jobj [], r2)
       | r2 => parseJsonFields fuel r2 [])
    | c :: rest =>
      if c == '-' || c.isDigit then
        (parseJsonNumberChars (c :: rest)).map fun p => (Json.jnum (String.mk p.1), p.2)
      else none
    | [] => none

/-- Array items of the `JSON.parse` grammar (helper of `parseJsonValue`). -/
def parseJsonItems : Nat → List Char → List Json → Option (Json × List Char)
  | 0, _, _ => none
  | fuel + 1, cs, acc =>
    (parseJsonValue fuel cs).bind fun p =>
      match p.2.dropWhile isJsonWs with
      | ',' :: r2 => parseJsonItems fuel r2 (acc ++ [p.1])
      | ']' :: r2 => some (Json.jarr (acc ++ [p.1]), r2)
      | _ => none

/-- Object fields of the `JSON.parse` grammar (helper of `parseJsonValue`). -/
def parseJsonFields : Nat → List Char → List (String × Json) → Option (Json × List Char)
  | 0, _, _ => none
  | fuel + 1, cs, acc =>
    match cs.dropWhile isJsonWs with
    | '"' :: rest =>
      (parseJsonStringChars rest).bind fun kp =>
        match kp.2.dropWhile isJsonWs with
        | ':' :: r2 =>
          (parseJsonValue fuel r2).bind fun vp =>
            (match vp.2.dropWhile isJsonWs with
             | ',' :: r3 => parseJsonFields fuel r3 (listSet acc (String.mk kp.1) vp.1)
             | '}' :: r3 => some (Json.jobj (listSet acc (String.mk kp.1) vp.1), r3)
             | _ => none)
        | _ => none
    | _ => none

end

/-- Modelled from the spec: the platform `JSON.parse` — parse one value and
require only whitespace to remain. -/
def jsonParse (s : String) : Option Json :=
  (parseJsonValue (2 * s.data.length + 2) s.data).bind fun p =>
    if p.2.dropWhile isJsonWs = [] then some p.1 else none

/-- The `relay` field of one legacy contact entry, kept when the entry is an
object with a nonempty string `relay` property (the source's truthiness plus
`typeof relayInfo === 'object'` checks; non-string relay values are skipped,
as they can never pass `isValidRelayUrl`). Helper of
`contactRelayStrings`. -/
def contactRelayField (acc : List String) (field : Json) : List String :=
  match field with
  | Json.jobj rf =>
    (match listGet rf "relay" with
     | some (Json.jstr s) => if s ≠ "" then acc ++ [s] else acc
     | _ => acc)
  | _ => acc

/-- Mirrors the content scan of `processContactEvent`:
`Object.entries(JSON.parse(content))` filtered down to the candidate relay
strings, in entry order. `Object.entries` of an array yields its elements,
so arrays are covered too; any other value (or a parse failure) yields
nothing, matching the source's silent catch. -/
def contactRelayStrings (content : String) : List String :=
  match jsonParse content with
  | some (Json.jobj fields) => fields.foldl (fun acc f => contactRelayField acc f.2) []
  | some (Json.jarr xs) => xs.foldl contactRelayField []
  | _ => []

/-- Endorsement signal source tag (`'nip65' | 'nip19' | 'contacts'`). -/
inductive RelaySource where
  | nip65 : RelaySource
  | nip19 : RelaySource
  | contacts : RelaySource
deriving DecidableEq, Repr

/-- One endpoint's recommendation entry: endorser sets, freshness stamp and
signal sources, as in the `relayRecommendations` map of
`StandardRelayDiscovery`. -/
structure RelayRec where
  readRecommendations : List String
  writeRecommendations : List String
  lastSeen : Int
  sources : List RelaySource
deriving DecidableEq, Repr

/-- The fresh entry used when a URL is first endorsed. -/
def RelayRec.empty : RelayRec := ⟨[], [], 0, []⟩

/-- Mirrors `StandardRelayDiscoveryConfig`. -/
structure StandardRelayDiscoveryConfig where
  maxRelays : Nat
  minFolloweeRecommendations : Nat
  nip65Enabled : Bool
  nip19Enabled : Bool
  followContactRelays : Bool
  blacklistedDomains : List String
  preferredDomains : List String
  maxAgeHours : Int
deriving Repr

/-- Mirrors `defaultStandardConfig`. -/
def defaultStandardConfig : StandardRelayDiscoveryConfig where
  maxRelays := 15
  minFolloweeRecommendations := 2
  nip65Enabled := true
  nip19Enabled := true
  followContactRelays := true
  blacklistedDomains := ["localhost", "127.0.0.1", "0.0.0.0", "test.local",
    "example.com", "192.168.", "10.0.", "172.16."]
  preferredDomains := ["relay.damus.io", "nos.lol", "relay.primal.net",
    "relay.nostr.band", "nostr.wine", "relay.snort.social",
    "nostr-pub.wellorder.net", "relay.current.fyi"]
  maxAgeHours := 720

/-- The relay recommendation table. -/
abbrev RelayMap := List (String × RelayRec)

/-- The discovery manager's mutable state (`relayRecommendations` and
`followedPubkeys`). -/
structure DiscoveryState where
  relayRecommendations : RelayMap
  followedPubkeys : List String
deriving DecidableEq, Repr

/-- The initial discovery state. -/
def DiscoveryState.empty : DiscoveryState := ⟨[], []⟩

/-- Mirrors `StandardRelayDiscovery.isBlacklisted`: hostname equal to a
blacklisted entry, dot-suffixed by one, or literally prefixed by one; an
unparseable URL counts as blacklisted. -/
def isBlacklisted (cfg : StandardRelayDiscoveryConfig) (relayUrl : String) : Bool :=
  match parseUrl relayUrl with
  | some u => cfg.blacklistedDomains.any fun domain =>
      u.host == domain.data || ('.' :: domain.data).isSuffixOf u.host ||
        domain.data.isPrefixOf u.host
  | none => true

/-- Mirrors `StandardRelayDiscovery.isPreferredDomain`. -/
def isPreferredDomain (cfg : StandardRelayDiscoveryConfig) (relayUrl : String) : Bool :=
  match parseUrl relayUrl with
  | some u => cfg.preferredDomains.any fun domain =>
      u.host == domain.data || ('.' :: domain.data).isSuffixOf u.host
  | none => false

/-- The blacklist matching policy exactly as the specification words it:
the hostname equals a blacklisted entry, or ends with a dot followed by the
entry, or starts with the entry as a literal prefix; a URL that fails to
parse is treated as blacklisted (fail-closed). Stated independently of
`isBlacklisted` for the refinement claim. -/
def blacklistPolicySpec (cfg : StandardRelayDiscoveryConfig) (relayUrl : String) : Bool :=
  match parseUrl relayUrl with
  | none => true
  | some u => cfg.blacklistedDomains.any fun domain =>
      decide (u.host = domain.data ∨ ('.' :: domain.data) <:+ u.host ∨ domain.data <+: u.host)

/-- Mirrors `RelayListEntry`. -/
structure RelayListEntry where
  url : String
  read : Bool
  write : Bool
  source : RelaySource
  pubkey : String
  timestamp : Int
deriving DecidableEq, Repr

/-- Mirrors `parseNip65RelayList`: the r-tags with a valid relay URL, the
URL normalized, read/write flags from the optional marker (`read` makes it
read-only, `write` write-only, anything else or no marker means both). -/
def parseNip65RelayList (event : NostrEvent) : List RelayListEntry :=
  if event.kind ≠ 10002 then []
  else
    event.tags.foldl
      (fun relayEntries tag =>
        match tag with
        | r :: u :: rest =>
          if r = "r" ∧ u ≠ "" ∧ isValidRelayUrl u then
            relayEntries ++ [⟨normalizeRelayUrl u,
              rest.head? ≠ some "write", rest.head? ≠ some "read",
              RelaySource.nip65, event.pubkey, event.created_at⟩]
          else relayEntries
        | _ => relayEntries) []

/-- One endorsement to fold into the relay table; the per-source process
functions build these from their entries, hints, or contact rows. -/
structure EndorseInput where
  url : String
  pubkey : String
  read : Bool
  write : Bool
  timestamp : Int
  src : RelaySource
deriving DecidableEq, Repr

/-- The followed pubkey a contact tag contributes
(`tag[0] === 'p' && tag[1]`), if any. -/
def tagFollowPk (tag : List String) : Option String :=
  match tag with
  | p :: pk :: _ => if p = "p" ∧ pk ≠ "" then some pk else none
  | _ => none

/-- One tag's update to the followed-pubkeys set in
`processContactEvent`. -/
def contactFollowedStep (fp : List String) (tag : List String) : List String :=
  match tagFollowPk tag with
  | some pk => setAdd fp pk
  | none => fp

/-- The entry value written back by one endorsement: fetch or create the
entry, add the endorsing pubkey to the read and/or write set, bump
`lastSeen` to the max with the event timestamp in milliseconds, record the
source. -/
def updRec (m : RelayMap) (inp : EndorseInput) : RelayRec :=
  let existing := (listGet m inp.url).getD RelayRec.empty
  let existing := if inp.read then
      { existing with readRecommendations := setAdd existing.readRecommendations inp.pubkey }
    else existing
  let existing := if inp.write then
      { existing with writeRecommendations := setAdd existing.writeRecommendations inp.pubkey }
    else existing
  let existing := { existing with lastSeen := max existing.lastSeen (inp.timestamp * 1000) }
  { existing with sources := setAdd existing.sources inp.src }

/-- Combined endorsement count of an entry (`totalRecs` in the source). -/
def recTotal (r : RelayRec) : Nat :=
  r.readRecommendations.length + r.writeRecommendations.length

/-- The per-URL update inlined in each of `processNip65Event`,
`processNip19Hints` and `processContactEvent`: store the updated entry back
and report the URL when its combined endorsement count now meets the
threshold. -/
def relayEndorse (cfg : StandardRelayDiscoveryConfig)
    (acc : List String × RelayMap) (inp : EndorseInput) : List String × RelayMap :=
  let existing := updRec acc.2 inp
  let recs := listSet acc.2 inp.url existing
  if cfg.minFolloweeRecommendations ≤ recTotal existing then (acc.1 ++ [inp.url], recs)
  else (acc.1, recs)

/-- Fold a batch of endorsements, accumulating the reported URLs
(`newRelays` in the source). -/
def endorseAll (cfg : StandardRelayDiscoveryConfig) (inputs : List EndorseInput)
    (acc : List String × RelayMap) : List String × RelayMap :=
  inputs.foldl (relayEndorse cfg) acc

/-- Mirrors `StandardRelayDiscovery.processNip65Event`; the source's
forEach-with-early-return over blacklisted entries is modelled as a filter
before the fold. -/
def processNip65Event (cfg : StandardRelayDiscoveryConfig) (st : DiscoveryState)
    (event : NostrEvent) : List String × DiscoveryState :=
  if ¬ cfg.nip65Enabled ∨ event.kind ≠ 10002 then ([], st)
  else
    let inputs := ((parseNip65RelayList event).filter
        (fun entry => ! isBlacklisted cfg entry.url)).map
      (fun entry => ⟨entry.url, entry.pubkey, entry.read, entry.write,
        entry.timestamp, RelaySource.nip65⟩)
    let r := endorseAll cfg inputs ([], st.relayRecommendations)
    (r.1, { st with relayRecommendations := r.2 })

/-- Mirrors `StandardRelayDiscovery.processNip19Hints`: extracted hints are
read-only endorsements from the note's author. -/
def processNip19Hints (cfg : StandardRelayDiscoveryConfig) (st : DiscoveryState)
    (event : NostrEvent) : List String × DiscoveryState :=
  if ¬ cfg.nip19Enabled then ([], st)
  else
    let inputs := ((extractNip19RelayHints event.content).filter
        (fun relayUrl => ! isBlacklisted cfg relayUrl)).map
      (fun relayUrl => ⟨relayUrl, event.pubkey, true, false,
        event.created_at, RelaySource.nip19⟩)
    let r := endorseAll cfg inputs ([], st.relayRecommendations)
    (r.1, { st with relayRecommendations := r.2 })

/-- Mirrors `StandardRelayDiscovery.processContactEvent`: collect `p`-tagged
pubkeys, then treat each recognizable relay URL in the legacy content as a
read endorsement. Note the source validates and blacklist-checks the raw
URL but stores the normalized one. -/
def processContactEvent (cfg : StandardRelayDiscoveryConfig) (st : DiscoveryState)
    (event : NostrEvent) : List String × DiscoveryState :=
  if ¬ cfg.followContactRelays ∨ event.kind ≠ 3 then ([], st)
  else
    let followed := event.tags.foldl contactFollowedStep st.followedPubkeys
    let inputs := ((contactRelayStrings event.content).filter
        (fun relayUrl => isValidRelayUrl relayUrl && ! isBlacklisted cfg relayUrl)).map
      (fun relayUrl => ⟨normalizeRelayUrl relayUrl, event.pubkey, true, false,
        event.created_at, RelaySource.contacts⟩)
    let r := endorseAll cfg inputs ([], st.relayRecommendations)
    (r.1, { st with relayRecommendations := r.2, followedPubkeys := followed })

/-- Mirrors the ranked output record of `getRecommendedRelays`. -/
structure RecommendedRelay where
  url : String
  readRecs : Nat
  writeRecs : Nat
  totalRecs : Nat
  lastSeen : Int
  sources : List RelaySource
  score : Int
deriving DecidableEq, Repr

/-- The decay horizon in milliseconds (`maxAgeHours * 60 * 60 * 1000`). -/
def relayMaxAge (cfg : StandardRelayDiscoveryConfig) : Int :=
  cfg.maxAgeHours * 60 * 60 * 1000

/-- The filter step of `getRecommendedRelays`: drop entries past the decay
horizon (the source also deletes them as it goes — see `readPrunedState`)
and keep those meeting the threshold. -/
def qualifyingEntries (cfg : StandardRelayDiscoveryConfig) (st : DiscoveryState)
    (now : Int) : RelayMap :=
  st.relayRecommendations.filter fun p =>
    decide (now - p.2.lastSeen ≤ relayMaxAge cfg) &&
      decide (cfg.minFolloweeRecommendations ≤
        p.2.readRecommendations.length + p.2.writeRecommendations.length)

/-- The scoring step of `getRecommendedRelays`: combined count plus the
preferred-domain, announcement-source and hint-source bonuses. -/
def scoreRelay (cfg : StandardRelayDiscoveryConfig) (p : String × RelayRec) : RecommendedRelay :=
  let readRecs := p.2.readRecommendations.length
  let writeRecs := p.2.writeRecommendations.length
  let totalRecs := readRecs + writeRecs
  let score : Int := totalRecs
  let score := if isPreferredDomain cfg p.1 then score + 10 else score
  let score := if RelaySource.nip65 ∈ p.2.sources then score + 5 else score
  let score := if RelaySource.nip19 ∈ p.2.sources then score + 2 else score
  ⟨p.1, readRecs, writeRecs, totalRecs, p.2.lastSeen, p.2.sources, score⟩

/-- Stable insertion modelling one step of a spec-stable sort: the new
element goes in front of the first element it is ordered at-or-before,
keeping earlier elements first among ties. -/
def stableInsert {α : Type} (le : α → α → Bool) (x : α) : List α → List α
  | [] => [x]
  | y :: ys => if le x y then x :: y :: ys else y :: stableInsert le x ys

/-- Stable sort modelling `Array.prototype.sort` (specified stable since
ES2019); `le a b` means the comparator orders `a` at or before `b`. -/
def stableSort {α : Type} (le : α → α → Bool) : List α → List α
  | [] => []
  | x :: xs => stableInsert le x (stableSort le xs)

/-- Mirrors `StandardRelayDiscovery.getRecommendedRelays` (`now` stands for
`Date.now()`): filter, score, sort stably by descending score (JavaScript's
stable sort under the comparator `b.score - a.score`), truncate to
`maxRelays`. -/
def getRecommendedRelays (cfg : StandardRelayDiscoveryConfig) (st : DiscoveryState)
    (now : Int) : List RecommendedRelay :=
  (stableSort (fun a b => decide (b.score ≤ a.score))
    ((qualifyingEntries cfg st now).map (scoreRelay cfg))).take cfg.maxRelays

/-- The state after the lazy deletion `getRecommendedRelays` performs while
filtering: entries past the decay horizon are removed, all others kept. -/
def readPrunedState (cfg : StandardRelayDiscoveryConfig) (st : DiscoveryState)
    (now : Int) : DiscoveryState :=
  { st with relayRecommendations :=
      st.relayRecommendations.filter fun p =>
        decide (now - p.2.lastSeen ≤ relayMaxAge cfg) }

/-- Mirrors `StandardRelayDiscovery.cleanup` (the periodic sweep). -/
def cleanup (cfg : StandardRelayDiscoveryConfig) (st : DiscoveryState)
    (now : Int) : DiscoveryState :=
  { st with relayRecommendations :=
      st.relayRecommendations.filter fun p =>
        decide (now - p.2.lastSeen ≤ relayMaxAge cfg) }

/-- One call into the Recommendation Engine, for quantifying over arbitrary
call sequences. -/
inductive DiscoveryOp where
  | nip65 : NostrEvent → DiscoveryOp
  | nip19 : NostrEvent → DiscoveryOp
  | contact : NostrEvent → DiscoveryOp

/-- Apply one discovery call to the state. -/
def applyDiscoveryOp (cfg : StandardRelayDiscoveryConfig) (st : DiscoveryState) :
    DiscoveryOp → DiscoveryState
  | DiscoveryOp.nip65 e => (processNip65Event cfg st e).2
  | DiscoveryOp.nip19 e => (processNip19Hints cfg st e).2
  | DiscoveryOp.contact e => (processContactEvent cfg st e).2

/-- A whole sequence of discovery calls from the empty state. -/
def runDiscovery (cfg : StandardRelayDiscoveryConfig) (ops : List DiscoveryOp) : DiscoveryState :=
  ops.foldl (applyDiscoveryOp cfg) DiscoveryState.empty

/-- Combined endorsement count of a URL in a relay table (`totalRecs`). -/
def countRecs (m : RelayMap) (url : String) : Nat :=
  match listGet m url with
  | some r => recTotal r
  | none => 0

/-- Number of distinct endorsing authors of an entry: the read and write
endorser sets merged without double counting. -/
def distinctEndorsers (r : RelayRec) : Nat :=
  (r.readRecommendations ++ r.writeRecommendations).dedup.length

/-- Count lookup in a whole distribution table (proof helper). -/
def dlookup (m : DistMap) (topic relayUrl : String) : Nat :=
  distCount ((listGet m topic).getD []) relayUrl

/-- An endorsement already recorded in the table: the pubkey is in the
required endorser sets, the timestamp is absorbed by `lastSeen`, and the
source is listed. Applying such an endorsement again cannot change the
table. -/
def endorseApplied (m : RelayMap) (inp : EndorseInput) : Prop :=
  ∃ r, listGet m inp.url = some r ∧
    (inp.read = true → inp.pubkey ∈ r.readRecommendations) ∧
    (inp.write = true → inp.pubkey ∈ r.writeRecommendations) ∧
    inp.timestamp * 1000 ≤ r.lastSeen ∧ inp.src ∈ r.sources

/-- No table entry is keyed by a blacklisted URL. -/
def noBlacklisted (cfg : StandardRelayDiscoveryConfig) (m : RelayMap) : Prop :=
  ∀ url r, (url, r) ∈ m → isBlacklisted cfg url = false

/-- Shape facts true of every `parseUrlChars` result, on which the
round-trip through the serializer relies. -/
def WFUrl (p : ParsedUrl) : Prop :=
  (∃ c0 ctl, p.scheme = c0 :: ctl ∧ c0.isAlpha = true) ∧
  (∀ c ∈ p.scheme, isSchemeChar c = true) ∧
  lowerChars p.scheme = p.scheme ∧
  p.host ≠ [] ∧
  (∀ c ∈ p.host, isAuthorityStop c = false ∧ c ≠ ':') ∧
  lowerChars p.host = p.host ∧
  (p.port = [] ∨ ((∀ c ∈ p.port, c.isDigit = true) ∧ p.port ≠ defaultPortFor p.scheme)) ∧
  (∃ tl, p.path = '/' :: tl)

/-- Fixture: a kind-10002 announcement from `alice` endorsing one relay
with no marker, so she lands in both endorser sets. -/
def evAliceBoth : NostrEvent := ⟨"ev-a", "alice", 1000, 10002, [["r", "wss://relay.one"]], ""⟩

/-- Fixture: announcement from `alice` endorsing the relay read-only. -/
def evAliceRead : NostrEvent :=
  ⟨"ev-ar", "alice", 1000, 10002, [["r", "wss://relay.one", "read"]], ""⟩

/-- Fixture: announcement from `bob` endorsing the same relay read-only. -/
def evBobRead : NostrEvent :=
  ⟨"ev-br", "bob", 1100, 10002, [["r", "wss://relay.one", "read"]], ""⟩

/-- Fixture for the promotion scenario: announcement from author `a`
listing `wss://relay.example/` with no marker. -/
def evAnnounceExample : NostrEvent :=
  ⟨"ev-ann", "a", 1000, 10002, [["r", "wss://relay.example/"]], ""⟩

/-- Fixture for the promotion scenario: a note from author `b` whose
content carries a NIP-19 entity token and the same relay URL in plain
text next to it. -/
def evHintNote : NostrEvent :=
  ⟨"ev-hint", "b", 2000, 1, [],
    "see nprofile1qy2hwumn8ghj7un9d3shjtnyv9kh2uewd9hj7 at wss://relay.example"⟩

/-- Fixture: a note tagged `x` (delivery counting and idempotence). -/
def evTopicX1 : NostrEvent := ⟨"dx1", "p1", 0, 1, [["t", "x"]], ""⟩

/-- Fixture: a second note tagged `x`. -/
def evTopicX2 : NostrEvent := ⟨"dx2", "p2", 0, 1, [["t", "x"]], ""⟩

/-- Fixture: a third note tagged `x`. -/
def evTopicX3 : NostrEvent := ⟨"dx3", "p3", 0, 1, [["t", "x"]], ""⟩

/-- Fixture: a note carrying the tag `x` twice. -/
def evTopicXdup : NostrEvent := ⟨"dx4", "p4", 0, 1, [["t", "x"], ["t", "x"]], ""⟩

/-- Fixture: a delivery log in which `wss://b` delivered more `x` notes
than `wss://a`, but later, and one delivery carried a duplicate tag. -/
def distCalls : List (NostrEvent × String) :=
  [(evTopicX1, "wss://a"), (evTopicX2, "wss://b"), (evTopicX3, "wss://b"),
    (evTopicXdup, "wss://c")]

/-- Fixture: 101 messages with pairwise distinct ids, all tagged `x`. -/
def capEvents : List NostrEvent :=
  (List.range 101).map fun i => ⟨toString i, "author", 0, 1, [["t", "x"]], ""⟩

/-- Fixture: the discovery state after `alice`'s unmarked announcement. -/
def stAliceBoth : DiscoveryState :=
  (processNip65Event defaultStandardConfig DiscoveryState.empty evAliceBoth).2

/-- A read instant far past the decay horizon of `stAliceBoth`
(`lastSeen = 1000000`, horizon 720 hours). -/
def staleNow : Int := 1000000 + 720 * 60 * 60 * 1000 + 1

/-- Fixture: the state after alice's read-only announcement (combined
count 1). -/
def stAliceRead : DiscoveryState :=
  (processNip65Event defaultStandardConfig DiscoveryState.empty evAliceRead).2

/-- Fixture: the state after alice's and bob's read-only announcements
(combined count 2). -/
def stAliceBobRead : DiscoveryState :=
  (processNip65Event defaultStandardConfig stAliceRead evBobRead).2

/-- Fixture: the state after author a's unmarked announcement of
`wss://relay.example/`. -/
def stAnnounceExample : DiscoveryState :=
  (processNip65Event defaultStandardConfig DiscoveryState.empty evAnnounceExample).2

/-- Fixture: the previous state after also processing author b's hint
note. -/
def stAfterHint : DiscoveryState :=
  (processNip19Hints defaultStandardConfig stAnnounceExample evHintNote).2

theorem listGet_listSet_self {α : Type} (m : List (String × α)) (k : String) (v : α) :
    listGet (listSet m k v) k = some v := by
  induction m with
  | nil => simp [listSet, listGet]
  | cons hd tl ih =>
    obtain ⟨k1, v1⟩ := hd
    by_cases hk : k1 = k <;> simp [listSet, listGet, hk, ih]

theorem listGet_listSet_ne {α : Type} (m : List (String × α)) {k1 k2 : String} (v : α)
    (h : k1 ≠ k2) : listGet (listSet m k1 v) k2 = listGet m k2 := by
  induction m with
  | nil => simp [listSet, listGet, h]
  | cons hd tl ih =>
    obtain ⟨ka, va⟩ := hd
    by_cases hha : ka = k1
    · subst hha
      simp [listSet, listGet, h]
    · simp [listSet, listGet, hha, ih]

theorem listSet_listGet_eq {α : Type} {m : List (String × α)} {k : String} {v : α}
    (h : listGet m k = some v) : listSet m k v = m := by
  induction m with
  | nil => simp [listGet] at h
  | cons hd tl ih =>
    obtain ⟨k1, v1⟩ := hd
    by_cases hk : k1 = k
    · subst hk
      simp [listGet] at h
      simp [listSet, h]
    · simp [listGet, hk] at h
      simp [listSet, hk, ih h]

theorem listGet_mem {α : Type} {m : List (String × α)} {k : String} {v : α}
    (h : listGet m k = some v) : (k, v) ∈ m := by
  induction m with
  | nil => simp [listGet] at h
  | cons hd tl ih =>
    obtain ⟨k1, v1⟩ := hd
    by_cases hk : k1 = k
    · subst hk
      simp [listGet] at h
      simp [h]
    · simp [listGet, hk] at h
      simp [ih h]

theorem mem_listSet {α : Type} {m : List (String × α)} {k : String} {v : α}
    {p : String × α} (h : p ∈ listSet m k v) : p = (k, v) ∨ p ∈ m := by
  induction m with
  | nil => simpa [listSet] using h
  | cons hd tl ih =>
    obtain ⟨k1, v1⟩ := hd
    by_cases hk : k1 = k
    · subst hk
      simp [listSet] at h
      rcases h with h | h
      · exact Or.inl h
      · exact Or.inr (by simp [h])
    · simp [listSet, hk] at h
      rcases h with h | h
      · exact Or.inr (by simp [h])
      · rcases ih h with h1 | h1
        · exact Or.inl h1
        · exact Or.inr (by simp [h1])

theorem listGet_filter_none {α : Type} (m : List (String × α)) (pred : String × α → Bool)
    (k : String) (h : ∀ v, (k, v) ∈ m → pred (k, v) = false) :
    listGet (m.filter pred) k = none := by
  induction m with
  | nil => simp [listGet]
  | cons hd tl ih =>
    obtain ⟨k1, v1⟩ := hd
    have ihh : listGet (tl.filter pred) k = none :=
      ih fun v hv => h v (by simp [hv])
    by_cases hk : k1 = k
    · subst hk
      have : pred (k1, v1) = false := h v1 (by simp)
      simp [List.filter, this, ihh]
    · rcases hp : pred (k1, v1) with _ | _ <;>
        simp [List.filter, hp, listGet, hk, ihh]

theorem setAdd_mem_self {α : Type} [DecidableEq α] (s : List α) (x : α) :
    x ∈ setAdd s x := by
  unfold setAdd
  split
  · assumption
  · simp

theorem setAdd_of_mem {α : Type} [DecidableEq α] {s : List α} {x : α} (h : x ∈ s) :
    setAdd s x = s := if_pos h

theorem mem_setAdd_of_mem {α : Type} [DecidableEq α] {s : List α} {x y : α} (h : y ∈ s) :
    y ∈ setAdd s x := by
  unfold setAdd
  split
  · exact h
  · simp [h]

theorem length_le_setAdd {α : Type} [DecidableEq α] (s : List α) (x : α) :
    s.length ≤ (setAdd s x).length := by
  unfold setAdd
  split
  · exact le_refl _
  · simp

theorem char_toNat_ofNat {n : Nat} (h : Nat.isValidChar n) : (Char.ofNat n).toNat = n := by
  simp [Char.ofNat, h]
  rfl

theorem toLower_def (c : Char) :
    c.toLower = if c.toNat ≥ 65 ∧ c.toNat ≤ 90 then Char.ofNat (c.toNat + 32) else c := rfl

theorem toLower_of_upper {c : Char} (h1 : 65 ≤ c.toNat) (h2 : c.toNat ≤ 90) :
    c.toLower = Char.ofNat (c.toNat + 32) := by
  rw [toLower_def, if_pos ⟨h1, h2⟩]

theorem toLower_eq_self {c : Char} (h : ¬ (65 ≤ c.toNat ∧ c.toNat ≤ 90)) :
    c.toLower = c := by
  rw [toLower_def, if_neg (fun hc => h ⟨hc.1, hc.2⟩)]

theorem toNat_toLower_of_upper {c : Char} (h1 : 65 ≤ c.toNat) (h2 : c.toNat ≤ 90) :
    c.toLower.toNat = c.toNat + 32 := by
  rw [toLower_of_upper h1 h2]
  exact char_toNat_ofNat (Or.inl (by omega))

theorem toLower_toLower (c : Char) : c.toLower.toLower = c.toLower := by
  by_cases h : 65 ≤ c.toNat ∧ c.toNat ≤ 90
  · have hn := toNat_toLower_of_upper h.1 h.2
    exact toLower_eq_self (by omega)
  · simp [toLower_eq_self h]

theorem lowerChars_idem (cs : List Char) : lowerChars (lowerChars cs) = lowerChars cs := by
  unfold lowerChars
  rw [List.map_map]
  exact List.map_congr_left fun c _ => toLower_toLower c

theorem lowerStr_idem (s : String) : lowerStr (lowerStr s) = lowerStr s := by
  unfold lowerStr
  rw [show (String.mk (lowerChars s.data)).data = lowerChars s.data from rfl, lowerChars_idem]

theorem lower_letter_schemeChar {n : Nat} (h1 : 65 ≤ n) (h2 : n ≤ 90) :
    isSchemeChar (Char.ofNat (n + 32)) = true := by
  interval_cases n <;> decide

theorem lower_letter_alpha {n : Nat} (h1 : 65 ≤ n) (h2 : n ≤ 90) :
    (Char.ofNat (n + 32)).isAlpha = true := by
  interval_cases n <;> decide

theorem lower_letter_notStop {n : Nat} (h1 : 65 ≤ n) (h2 : n ≤ 90) :
    isAuthorityStop (Char.ofNat (n + 32)) = false := by
  interval_cases n <;> decide

theorem lower_letter_ne_colon {n : Nat} (h1 : 65 ≤ n) (h2 : n ≤ 90) :
    Char.ofNat (n + 32) ≠ ':' := by
  interval_cases n <;> decide

theorem isSchemeChar_toLower {c : Char} (h : isSchemeChar c = true) :
    isSchemeChar c.toLower = true := by
  by_cases hc : 65 ≤ c.toNat ∧ c.toNat ≤ 90
  · rw [toLower_of_upper hc.1 hc.2]
    exact lower_letter_schemeChar hc.1 hc.2
  · rwa [toLower_eq_self hc]

theorem isAlpha_toLower {c : Char} (h : c.isAlpha = true) : c.toLower.isAlpha = true := by
  by_cases hc : 65 ≤ c.toNat ∧ c.toNat ≤ 90
  · rw [toLower_of_upper hc.1 hc.2]
    exact lower_letter_alpha hc.1 hc.2
  · rwa [toLower_eq_self hc]

theorem notStop_toLower {c : Char} (h : isAuthorityStop c = false) :
    isAuthorityStop c.toLower = false := by
  by_cases hc : 65 ≤ c.toNat ∧ c.toNat ≤ 90
  · rw [toLower_of_upper hc.1 hc.2]
    exact lower_letter_notStop hc.1 hc.2
  · rwa [toLower_eq_self hc]

theorem ne_colon_toLower {c : Char} (h : c ≠ ':') : c.toLower ≠ ':' := by
  by_cases hc : 65 ≤ c.toNat ∧ c.toNat ≤ 90
  · rw [toLower_of_upper hc.1 hc.2]
    exact lower_letter_ne_colon hc.1 hc.2
  · rwa [toLower_eq_self hc]

theorem schemeChar_ne_colon {c : Char} (h : isSchemeChar c = true) : c ≠ ':' := by
  intro he
  subst he
  exact absurd h (by decide)

theorem digit_ne_colon {c : Char} (h : c.isDigit = true) : c ≠ ':' := by
  intro he
  subst he
  exact absurd h (by decide)

theorem digit_notStop {c : Char} (h : c.isDigit = true) : isAuthorityStop c = false := by
  by_contra hs
  rw [Bool.not_eq_false] at hs
  simp only [isAuthorityStop, Bool.or_eq_true, beq_iff_eq] at hs
  rcases hs with (h1 | h1) | h1 <;> (subst h1; exact absurd h (by decide))

theorem takeWhile_append_all {α : Type} {p : α → Bool} {l r : List α}
    (h : ∀ a ∈ l, p a = true) : (l ++ r).takeWhile p = l ++ r.takeWhile p := by
  induction l with
  | nil => simp
  | cons a t ih =>
    have ha := h a (by simp)
    have iht := ih fun b hb => h b (by simp [hb])
    simp [List.takeWhile_cons, ha, iht]

theorem touchList_length_le (e : NostrEvent) (l : List NostrEvent) :
    (touchList e l).length ≤ 100 := by
  unfold touchList
  by_cases h1 : l.any (fun x => x.id == e.id) = true
  · rw [if_pos h1]
    by_cases h2 : 100 < l.length
    · rw [if_pos h2, List.length_take]
      exact Nat.min_le_left _ _
    · rw [if_neg h2]
      exact Nat.le_of_not_lt h2
  · rw [if_neg h1]
    by_cases h2 : 100 < (e :: l).length
    · rw [if_pos h2, List.length_take]
      exact Nat.min_le_left _ _
    · rw [if_neg h2]
      exact Nat.le_of_not_lt h2

theorem touchList_of_not_mem {e : NostrEvent} {l : List NostrEvent}
    (h : ∀ x ∈ l, x.id ≠ e.id) : touchList e l = (e :: l).take 100 := by
  have hany : l.any (fun x => x.id == e.id) = false := by
    simp only [List.any_eq_false, beq_iff_eq]
    exact h
  unfold touchList
  simp only [hany, Bool.false_eq_true, if_false]
  by_cases h1 : 100 < (e :: l).length
  · rw [if_pos h1]
  · rw [if_neg h1, List.take_of_length_le (Nat.le_of_not_lt h1)]

theorem touchList_of_mem {e : NostrEvent} {l : List NostrEvent}
    (hany : l.any (fun x => x.id == e.id) = true) (hl : l.length ≤ 100) :
    touchList e l = l := by
  unfold touchList
  simp [hany, Nat.not_lt.mpr hl]

theorem take_cons_any_id (e : NostrEvent) (l : List NostrEvent) :
    ((e :: l).take 100).any (fun x => x.id == e.id) = true := by
  rw [List.take_succ_cons]
  simp

theorem foldSteps_get_ne (e : NostrEvent) (hs : List String) (m : HashtagMap)
    {t : String} (h : t ∉ hs) :
    listGet (hs.foldl (hashtagEventsStep e) m) t = listGet m t := by
  induction hs generalizing m with
  | nil => rfl
  | cons h0 hs ih =>
    have hne : h0 ≠ t := fun he => h (by simp [he])
    rw [List.foldl_cons, ih _ (fun hm => h (by simp [hm]))]
    unfold hashtagEventsStep
    exact listGet_listSet_ne _ _ hne

theorem foldSteps_get_stable (e : NostrEvent) (hs : List String) (m : HashtagMap)
    (t : String) (L : List NostrEvent) (hget : listGet m t = some L)
    (hany : L.any (fun x => x.id == e.id) = true) (hlen : L.length ≤ 100) :
    listGet (hs.foldl (hashtagEventsStep e) m) t = some L := by
  induction hs generalizing m with
  | nil => exact hget
  | cons h0 hs ih =>
    rw [List.foldl_cons]
    apply ih
    by_cases he : h0 = t
    · subst he
      unfold hashtagEventsStep
      rw [hget]
      simp only [Option.getD_some]
      rw [touchList_of_mem hany hlen]
      exact listGet_listSet_self _ _ _
    · unfold hashtagEventsStep
      rw [listGet_listSet_ne _ _ he]
      exact hget

theorem foldSteps_get_touch (e : NostrEvent) (hs : List String) (m : HashtagMap)
    (t : String) (ht : t ∈ hs)
    (hnot : ∀ x ∈ (listGet m t).getD [], x.id ≠ e.id) :
    listGet (hs.foldl (hashtagEventsStep e) m) t
      = some ((e :: (listGet m t).getD []).take 100) := by
  induction hs generalizing m with
  | nil => cases ht
  | cons h0 hs ih =>
    rw [List.foldl_cons]
    by_cases he : h0 = t
    · subst he
      have hL : listGet (hashtagEventsStep e m h0) h0
          = some ((e :: (listGet m h0).getD []).take 100) := by
        unfold hashtagEventsStep
        rw [touchList_of_not_mem hnot]
        exact listGet_listSet_self _ _ _
      exact foldSteps_get_stable e hs _ h0 _ hL (take_cons_any_id e _)
        (by simp [List.length_take])
    · have ht' : t ∈ hs := by
        rcases List.mem_cons.mp ht with he' | h' <;> [exact absurd he'.symm he; exact h']
      have hpre : listGet (hashtagEventsStep e m h0) t = listGet m t := by
        unfold hashtagEventsStep
        exact listGet_listSet_ne _ _ he
      have := ih (hashtagEventsStep e m h0) ht' (by rw [hpre]; exact hnot)
      rwa [hpre] at this

theorem foldSteps_len_le (e : NostrEvent) (hs : List String) (m : HashtagMap)
    (hm : ∀ t, ((listGet m t).getD []).length ≤ 100) :
    ∀ t, ((listGet (hs.foldl (hashtagEventsStep e) m) t).getD []).length ≤ 100 := by
  induction hs generalizing m with
  | nil => exact hm
  | cons h0 hs ih =>
    rw [List.foldl_cons]
    apply ih
    intro t
    by_cases he : h0 = t
    · subst he
      unfold hashtagEventsStep
      rw [listGet_listSet_self]
      simpa using touchList_length_le e _
    · unfold hashtagEventsStep
      rw [listGet_listSet_ne _ _ he]
      exact hm t

theorem lowerStr_tagTopic (tag : List String) : lowerStr (tagTopic tag) = tagTopic tag := by
  rcases tag with _ | ⟨a, _ | ⟨s, rest⟩⟩
  · rfl
  · rfl
  · exact lowerStr_idem s

theorem eventHashtags_lowerStr {t : String} {e : NostrEvent} (h : t ∈ eventHashtags e) :
    lowerStr t = t := by
  unfold eventHashtags at h
  rw [List.mem_map] at h
  obtain ⟨tag, _, rfl⟩ := h
  exact lowerStr_tagTopic tag

theorem take_append_take {α : Type} (xs ys : List α) (n : Nat) :
    (xs ++ ys.take n).take n = (xs ++ ys).take n := by
  rw [List.take_append_eq_append_take, List.take_append_eq_append_take, List.take_take]
  congr 1
  rw [Nat.min_eq_left (Nat.sub_le _ _)]

theorem runTrack_take (es : List NostrEvent) (t : String) (m : HashtagMap)
    (hts : ∀ e ∈ es, t ∈ eventHashtags e)
    (hnd : (es.map NostrEvent.id).Nodup)
    (hdis : ∀ e ∈ es, ∀ x ∈ (listGet m t).getD [], x.id ≠ e.id)
    (hlen : ((listGet m t).getD []).length ≤ 100) :
    (listGet (es.foldl trackHashtagEvents m) t).getD []
      = (es.reverse ++ (listGet m t).getD []).take 100 := by
  induction es generalizing m with
  | nil => simp [List.take_of_length_le hlen]
  | cons e es ih =>
    have h1 : listGet (trackHashtagEvents m e) t
        = some ((e :: (listGet m t).getD []).take 100) :=
      foldSteps_get_touch e _ m t (hts e (by simp)) (hdis e (by simp))
    have hndtl : (es.map NostrEvent.id).Nodup := (List.nodup_cons.mp hnd).2
    have hhd : e.id ∉ es.map NostrEvent.id := (List.nodup_cons.mp hnd).1
    rw [List.foldl_cons]
    rw [ih (trackHashtagEvents m e)
      (fun e2 he2 => hts e2 (by simp [he2])) hndtl
      ?hdis ?hlen]
    case hdis =>
      intro e2 he2 x hx
      rw [h1] at hx
      simp only [Option.getD_some] at hx
      have hx2 := List.take_subset _ _ hx
      rcases List.mem_cons.mp hx2 with rfl | hx3
      · intro hxe
        exact hhd (by rw [hxe]; exact List.mem_map.mpr ⟨e2, he2, rfl⟩)
      · exact hdis e2 (by simp [he2]) x hx3
    case hlen =>
      rw [h1]
      simp [List.length_take]
    · rw [h1]
      simp only [Option.getD_some, List.reverse_cons]
      rw [take_append_take, List.append_assoc]
      rfl

theorem topic_index_cap_preserve (m : HashtagMap) (e : NostrEvent)
    (hm : ∀ t, ((listGet m t).getD []).length ≤ 100) :
    ∀ t, ((listGet (trackHashtagEvents m e) t).getD []).length ≤ 100 :=
  foldSteps_len_le e (eventHashtags e) m hm

/-- C5: `trackHashtagEvents` (recordMessage) is idempotent per message id
and topic — delivering a message twice for a topic it references leaves
exactly one copy of it in that topic's list, and the second delivery does
not change that topic's list. -/
theorem claim_topic_index_idempotent (m : HashtagMap) (e : NostrEvent) (t : String)
    (ht : t ∈ eventHashtags e)
    (hfresh : ∀ x ∈ (listGet m t).getD [], x.id ≠ e.id) :
    (getHashtagEvents (trackHashtagEvents (trackHashtagEvents m e) e) t).countP
        (fun x => x.id == e.id) = 1 ∧
    getHashtagEvents (trackHashtagEvents (trackHashtagEvents m e) e) t
      = getHashtagEvents (trackHashtagEvents m e) t := by
  have hlow := eventHashtags_lowerStr ht
  have h1 : listGet (trackHashtagEvents m e) t
      = some ((e :: (listGet m t).getD []).take 100) :=
    foldSteps_get_touch e _ m t ht hfresh
  have h2 : listGet (trackHashtagEvents (trackHashtagEvents m e) e) t
      = some ((e :: (listGet m t).getD []).take 100) :=
    foldSteps_get_stable e _ _ t _ h1 (take_cons_any_id e _) (by simp [List.length_take])
  unfold getHashtagEvents
  rw [hlow, h1, h2]
  refine ⟨?_, rfl⟩
  have hz : (((listGet m t).getD []).take 99).countP (fun x => x.id == e.id) = 0 := by
    rw [List.countP_eq_zero]
    intro a ha
    simp only [beq_iff_eq]
    exact hfresh a (List.take_subset _ _ ha)
  rw [Option.getD_some, List.take_succ_cons, List.countP_cons, hz]
  simp

/-- C5 witness: a concrete double delivery of one note tagged `x`. -/
theorem claim_topic_index_idempotent_witness :
    (getHashtagEvents (trackHashtagEvents (trackHashtagEvents [] evTopicX1) evTopicX1) "x").countP
        (fun x => x.id == evTopicX1.id) = 1 ∧
    getHashtagEvents (trackHashtagEvents (trackHashtagEvents [] evTopicX1) evTopicX1) "x"
      = getHashtagEvents (trackHashtagEvents [] evTopicX1) "x" :=
  claim_topic_index_idempotent [] evTopicX1 "x" (by decide) (by decide)

/-- C6: per-topic cap invariant — `trackHashtagEvents` keeps every topic
list at 100 entries or fewer, and inserting more than 100 distinct ids
under one topic from the empty table leaves exactly the most recent 100,
most-recent-first by arrival. -/
theorem claim_topic_cap :
    (∀ (m : HashtagMap) (e : NostrEvent),
        (∀ t, ((listGet m t).getD []).length ≤ 100) →
        ∀ t, ((listGet (trackHashtagEvents m e) t).getD []).length ≤ 100) ∧
    (∀ (es : List NostrEvent) (t : String),
        (∀ e ∈ es, t ∈ eventHashtags e) →
        (es.map NostrEvent.id).Nodup →
        100 < es.length →
        getHashtagEvents (runMessages es) t = es.reverse.take 100 ∧
        (getHashtagEvents (runMessages es) t).length = 100) := by
  constructor
  · exact topic_index_cap_preserve
  · intro es t hts hnd hlen
    obtain ⟨e0, he0⟩ : ∃ e0, e0 ∈ es := by
      cases es with
      | nil => simp at hlen
      | cons a l => exact ⟨a, by simp⟩
    have hlow := eventHashtags_lowerStr (hts e0 he0)
    have hrun := runTrack_take es t [] hts hnd
      (by intro e he x hx; simp [listGet] at hx) (by simp [listGet])
    have h0 : (listGet ([] : HashtagMap) t).getD [] = [] := rfl
    rw [h0, List.append_nil] at hrun
    unfold runMessages getHashtagEvents
    rw [hlow]
    refine ⟨hrun, ?_⟩
    rw [hrun, List.length_take, List.length_reverse]
    omega

/-- C6 witness: 101 distinct notes tagged `x`. -/
theorem claim_topic_cap_witness :
    getHashtagEvents (runMessages capEvents) "x" = capEvents.reverse.take 100 ∧
    (getHashtagEvents (runMessages capEvents) "x").length = 100 :=
  claim_topic_cap.2 capEvents "x" (by decide) (by decide) (by decide)

theorem dist_step_dlookup (rel0 h k rel : String) (m : DistMap) :
    dlookup (hashtagDistStep rel0 m h) k rel
      = dlookup m k rel + (if h = k ∧ rel0 = rel then 1 else 0) := by
  unfold hashtagDistStep dlookup distCount
  by_cases hk : h = k
  · subst hk
    rw [listGet_listSet_self]
    simp only [Option.getD_some]
    by_cases hr : rel0 = rel
    · subst hr
      rw [listGet_listSet_self]
      simp
    · rw [listGet_listSet_ne _ _ hr]
      simp [hr]
  · rw [listGet_listSet_ne _ _ hk]
    simp [hk]

theorem dist_fold_dlookup (rel0 k rel : String) (hs : List String) (m : DistMap) :
    dlookup (hs.foldl (hashtagDistStep rel0) m) k rel
      = dlookup m k rel + (if rel0 = rel then hs.count k else 0) := by
  induction hs generalizing m with
  | nil => simp
  | cons h0 hs ih =>
    rw [List.foldl_cons, ih, dist_step_dlookup]
    by_cases hr : rel0 = rel <;> by_cases hk : h0 = k <;>
      simp [hr, hk, List.count_cons] <;> omega

theorem deliveries_dlookup (calls : List (NostrEvent × String)) (m : DistMap)
    (k rel : String) :
    dlookup (calls.foldl (fun m c => trackHashtagRelayDistribution m c.1 c.2) m) k rel
      = dlookup m k rel + countDeliveries calls k rel := by
  induction calls generalizing m with
  | nil => simp [countDeliveries]
  | cons c cs ih =>
    rw [List.foldl_cons, ih]
    unfold trackHashtagRelayDistribution
    rw [dist_fold_dlookup]
    unfold countDeliveries
    simp only [List.map_cons, List.sum_cons]
    by_cases hr : c.2 = rel <;> simp [hr] <;> omega

/-- C4 counterexample: the distribution rows come back in first-delivery
order, not sorted descending by count, and a message carrying the same
topic tag twice makes one delivery count as two increments. -/
theorem claim_distribution_sorted_cx :
    getHashtagRelayDistribution (runDeliveries distCalls) "x"
      = [("wss://a", 1), ("wss://b", 2), ("wss://c", 2)] ∧
    ¬ List.Pairwise (fun a b : String × Nat => b.2 ≤ a.2)
        (getHashtagRelayDistribution (runDeliveries distCalls) "x") ∧
    distCount (getHashtagRelayDistribution (runDeliveries distCalls) "x") "wss://c" = 2 ∧
    (distCalls.filter
      (fun c => c.2 == "wss://c" && decide ("x" ∈ eventHashtags c.1))).length = 1 := by
  decide

/-- C4 amended: for every topic and endpoint, the count reported by
`getHashtagRelayDistribution` equals the number of delivery increments made
for that pair — one per occurrence of the topic among a delivered message's
t-tags, regardless of message deduplication — but the rows are returned in
first-delivery order, without sorting. -/
theorem claim_distribution_additivity (calls : List (NostrEvent × String))
    (topic relayUrl : String) :
    distCount (getHashtagRelayDistribution (runDeliveries calls) topic) relayUrl
      = countDeliveries calls (lowerStr topic) relayUrl := by
  unfold runDeliveries getHashtagRelayDistribution
  have h := deliveries_dlookup calls [] (lowerStr topic) relayUrl
  unfold dlookup at h
  have h0 : (listGet ([] : DistMap) (lowerStr topic)).getD [] = [] := rfl
  rw [h0] at h
  rw [h]
  simp [distCount, listGet]

theorem updRec_fields (m : RelayMap) (inp : EndorseInput) :
    (updRec m inp).readRecommendations
        = (if inp.read then
            setAdd ((listGet m inp.url).getD RelayRec.empty).readRecommendations inp.pubkey
          else ((listGet m inp.url).getD RelayRec.empty).readRecommendations) ∧
    (updRec m inp).writeRecommendations
        = (if inp.write then
            setAdd ((listGet m inp.url).getD RelayRec.empty).writeRecommendations inp.pubkey
          else ((listGet m inp.url).getD RelayRec.empty).writeRecommendations) ∧
    (updRec m inp).lastSeen
        = max ((listGet m inp.url).getD RelayRec.empty).lastSeen (inp.timestamp * 1000) ∧
    (updRec m inp).sources
        = setAdd ((listGet m inp.url).getD RelayRec.empty).sources inp.src := by
  unfold updRec
  by_cases hr : inp.read = true <;> by_cases hw : inp.write = true <;> simp [hr, hw]

theorem endorse_snd (cfg : StandardRelayDiscoveryConfig) (acc : List String × RelayMap)
    (inp : EndorseInput) :
    (relayEndorse cfg acc inp).2 = listSet acc.2 inp.url (updRec acc.2 inp) := by
  unfold relayEndorse
  by_cases hc : cfg.minFolloweeRecommendations ≤ recTotal (updRec acc.2 inp) <;> simp [hc]

theorem endorse_fst (cfg : StandardRelayDiscoveryConfig) (acc : List String × RelayMap)
    (inp : EndorseInput) :
    (relayEndorse cfg acc inp).1
      = if cfg.minFolloweeRecommendations ≤ recTotal (updRec acc.2 inp) then
          acc.1 ++ [inp.url]
        else acc.1 := by
  unfold relayEndorse
  by_cases hc : cfg.minFolloweeRecommendations ≤ recTotal (updRec acc.2 inp) <;> simp [hc]

theorem recTotal_updRec_ge (m : RelayMap) (inp : EndorseInput) :
    countRecs m inp.url ≤ recTotal (updRec m inp) := by
  obtain ⟨hr, hw, -, -⟩ := updRec_fields m inp
  unfold recTotal
  rw [hr, hw]
  unfold countRecs
  cases hg : listGet m inp.url with
  | none => simp
  | some r =>
    simp only [hg, Option.getD_some]
    have h1 : r.readRecommendations.length
        ≤ (if inp.read then setAdd r.readRecommendations inp.pubkey
           else r.readRecommendations).length := by
      split
      · exact length_le_setAdd _ _
      · exact le_refl _
    have h2 : r.writeRecommendations.length
        ≤ (if inp.write then setAdd r.writeRecommendations inp.pubkey
           else r.writeRecommendations).length := by
      split
      · exact length_le_setAdd _ _
      · exact le_refl _
    unfold recTotal
    omega

theorem countRecs_listSet_self (m : RelayMap) (k : String) (v : RelayRec) :
    countRecs (listSet m k v) k = recTotal v := by
  unfold countRecs
  rw [listGet_listSet_self]

theorem countRecs_listSet_ne (m : RelayMap) {k k2 : String} (v : RelayRec) (h : k ≠ k2) :
    countRecs (listSet m k v) k2 = countRecs m k2 := by
  unfold countRecs
  rw [listGet_listSet_ne _ _ h]

theorem endorse_count_mono (cfg : StandardRelayDiscoveryConfig)
    (acc : List String × RelayMap) (inp : EndorseInput) (url : String) :
    countRecs acc.2 url ≤ countRecs (relayEndorse cfg acc inp).2 url := by
  rw [endorse_snd]
  by_cases hu : inp.url = url
  · subst hu
    rw [countRecs_listSet_self]
    exact recTotal_updRec_ge acc.2 inp
  · rw [countRecs_listSet_ne _ _ hu]

theorem endorse_fst_mono (cfg : StandardRelayDiscoveryConfig)
    (acc : List String × RelayMap) (inp : EndorseInput) {x : String} (h : x ∈ acc.1) :
    x ∈ (relayEndorse cfg acc inp).1 := by
  rw [endorse_fst]
  split
  · exact List.mem_append_left _ h
  · exact h

theorem endorse_fst_cases (cfg : StandardRelayDiscoveryConfig)
    (acc : List String × RelayMap) (inp : EndorseInput) {x : String}
    (h : x ∈ (relayEndorse cfg acc inp).1) :
    x ∈ acc.1 ∨ (x = inp.url ∧
      cfg.minFolloweeRecommendations ≤ countRecs (relayEndorse cfg acc inp).2 inp.url) := by
  rw [endorse_fst] at h
  rw [endorse_snd, countRecs_listSet_self]
  by_cases hc : cfg.minFolloweeRecommendations ≤ recTotal (updRec acc.2 inp)
  · rw [if_pos hc] at h
    rcases List.mem_append.mp h with h1 | h1
    · exact Or.inl h1
    · exact Or.inr ⟨List.mem_singleton.mp h1, hc⟩
  · rw [if_neg hc] at h
    exact Or.inl h

theorem endorse_pushed (cfg : StandardRelayDiscoveryConfig)
    (acc : List String × RelayMap) (inp : EndorseInput)
    (h : cfg.minFolloweeRecommendations ≤ countRecs acc.2 inp.url) :
    inp.url ∈ (relayEndorse cfg acc inp).1 := by
  rw [endorse_fst, if_pos (le_trans h (recTotal_updRec_ge acc.2 inp))]
  simp

theorem endorseAll_count_mono (cfg : StandardRelayDiscoveryConfig)
    (inputs : List EndorseInput) (acc : List String × RelayMap) (url : String) :
    countRecs acc.2 url ≤ countRecs (endorseAll cfg inputs acc).2 url := by
  induction inputs generalizing acc with
  | nil => exact le_refl _
  | cons inp inputs ih =>
    unfold endorseAll at ih ⊢
    rw [List.foldl_cons]
    exact le_trans (endorse_count_mono cfg acc inp url) (ih _)

theorem endorseAll_fst_mono (cfg : StandardRelayDiscoveryConfig)
    (inputs : List EndorseInput) (acc : List String × RelayMap) {x : String}
    (h : x ∈ acc.1) : x ∈ (endorseAll cfg inputs acc).1 := by
  induction inputs generalizing acc with
  | nil => exact h
  | cons inp inputs ih =>
    unfold endorseAll at ih ⊢
    rw [List.foldl_cons]
    exact ih _ (endorse_fst_mono cfg acc inp h)

theorem endorseAll_sound (cfg : StandardRelayDiscoveryConfig)
    (inputs : List EndorseInput) (acc : List String × RelayMap) (url : String)
    (h : url ∈ (endorseAll cfg inputs acc).1) :
    url ∈ acc.1 ∨
      cfg.minFolloweeRecommendations ≤ countRecs (endorseAll cfg inputs acc).2 url := by
  induction inputs generalizing acc with
  | nil => exact Or.inl h
  | cons inp inputs ih =>
    unfold endorseAll at h ih ⊢
    rw [List.foldl_cons] at h ⊢
    rcases ih _ h with h1 | h1
    · rcases endorse_fst_cases cfg acc inp h1 with h2 | ⟨rfl, h2⟩
      · exact Or.inl h2
      · refine Or.inr (le_trans h2 ?_)
        exact endorseAll_count_mono cfg inputs (relayEndorse cfg acc inp) _
    · exact Or.inr h1

theorem endorseAll_complete (cfg : StandardRelayDiscoveryConfig)
    (inputs : List EndorseInput) (acc : List String × RelayMap) (url : String)
    (hin : ∃ inp ∈ inputs, inp.url = url)
    (hcnt : cfg.minFolloweeRecommendations ≤ countRecs acc.2 url) :
    url ∈ (endorseAll cfg inputs acc).1 := by
  induction inputs generalizing acc with
  | nil => obtain ⟨inp, hi, -⟩ := hin; cases hi
  | cons inp0 inputs ih =>
    unfold endorseAll at ih ⊢
    rw [List.foldl_cons]
    obtain ⟨inp, hi, hu⟩ := hin
    rcases List.mem_cons.mp hi with rfl | hi2
    · rw [← hu] at hcnt
      have hp := endorse_pushed cfg acc inp hcnt
      rw [hu] at hp
      exact endorseAll_fst_mono cfg inputs _ hp
    · exact ih _ ⟨inp, hi2, hu⟩
        (le_trans hcnt (endorse_count_mono cfg acc inp0 url))

theorem endorseAll_fst_sources (cfg : StandardRelayDiscoveryConfig)
    (inputs : List EndorseInput) (acc : List String × RelayMap) (url : String)
    (h : url ∈ (endorseAll cfg inputs acc).1) :
    url ∈ acc.1 ∨ ∃ inp ∈ inputs, inp.url = url := by
  induction inputs generalizing acc with
  | nil => exact Or.inl h
  | cons inp0 inputs ih =>
    have hstep : endorseAll cfg (inp0 :: inputs) acc
        = endorseAll cfg inputs (relayEndorse cfg acc inp0) := rfl
    rw [hstep] at h
    rcases ih _ h with h1 | ⟨inp, hi, hu⟩
    · rcases endorse_fst_cases cfg acc inp0 h1 with h2 | ⟨heq, -⟩
      · exact Or.inl h2
      · exact Or.inr ⟨inp0, List.mem_cons_self _ _, heq.symm⟩
    · exact Or.inr ⟨inp, List.mem_cons_of_mem _ hi, hu⟩

theorem endorseAll_count_stable (cfg : StandardRelayDiscoveryConfig)
    (inputs : List EndorseInput) (acc : List String × RelayMap) {url : String}
    (h : ∀ inp ∈ inputs, inp.url ≠ url) :
    countRecs (endorseAll cfg inputs acc).2 url = countRecs acc.2 url := by
  induction inputs generalizing acc with
  | nil => rfl
  | cons inp0 inputs ih =>
    unfold endorseAll at ih ⊢
    rw [List.foldl_cons]
    rw [ih _ (fun inp hi => h inp (List.mem_cons_of_mem _ hi))]
    rw [endorse_snd]
    exact countRecs_listSet_ne _ _ (h inp0 (List.mem_cons_self _ _))

theorem endorseAll_complete_post (cfg : StandardRelayDiscoveryConfig)
    (inputs : List EndorseInput) (acc : List String × RelayMap) (url : String)
    (hin : ∃ inp ∈ inputs, inp.url = url)
    (hcnt : cfg.minFolloweeRecommendations
      ≤ countRecs (endorseAll cfg inputs acc).2 url) :
    url ∈ (endorseAll cfg inputs acc).1 := by
  induction inputs generalizing acc with
  | nil => obtain ⟨inp, hi, -⟩ := hin; cases hi
  | cons inp0 inputs ih =>
    have hstep : endorseAll cfg (inp0 :: inputs) acc
        = endorseAll cfg inputs (relayEndorse cfg acc inp0) := rfl
    rw [hstep] at hcnt ⊢
    by_cases hlater : ∃ inp ∈ inputs, inp.url = url
    · exact ih _ hlater hcnt
    · obtain ⟨inp, hi, hu⟩ := hin
      rcases List.mem_cons.mp hi with rfl | hi2
      · push_neg at hlater
        rw [endorseAll_count_stable cfg inputs _ hlater] at hcnt
        rw [endorse_snd, ← hu, countRecs_listSet_self] at hcnt
        have hp : inp.url ∈ (relayEndorse cfg acc inp).1 := by
          rw [endorse_fst, if_pos hcnt]
          simp
        rw [hu] at hp
        exact endorseAll_fst_mono cfg inputs _ hp
      · exact absurd ⟨inp, hi2, hu⟩ hlater

theorem updRec_applied (m : RelayMap) (inp : EndorseInput) :
    endorseApplied (listSet m inp.url (updRec m inp)) inp := by
  obtain ⟨hr, hw, hl, hs⟩ := updRec_fields m inp
  refine ⟨updRec m inp, listGet_listSet_self _ _ _, ?_, ?_, ?_, ?_⟩
  · intro hread
    rw [hr, if_pos hread]
    exact setAdd_mem_self _ _
  · intro hwrite
    rw [hw, if_pos hwrite]
    exact setAdd_mem_self _ _
  · rw [hl]
    exact le_max_right _ _
  · rw [hs]
    exact setAdd_mem_self _ _

theorem applied_listSet_updRec (m : RelayMap) (inp j : EndorseInput)
    (h : endorseApplied m j) :
    endorseApplied (listSet m inp.url (updRec m inp)) j := by
  obtain ⟨r, hget, hjr, hjw, hjl, hjs⟩ := h
  by_cases hu : inp.url = j.url
  · obtain ⟨hr, hw, hl, hs⟩ := updRec_fields m inp
    have hget2 : listGet m inp.url = some r := by rw [hu]; exact hget
    refine ⟨updRec m inp, ?_, ?_, ?_, ?_, ?_⟩
    · rw [← hu]
      exact listGet_listSet_self _ _ _
    · intro hread
      rw [hr, hget2, Option.getD_some]
      split
      · exact mem_setAdd_of_mem (hjr hread)
      · exact hjr hread
    · intro hwrite
      rw [hw, hget2, Option.getD_some]
      split
      · exact mem_setAdd_of_mem (hjw hwrite)
      · exact hjw hwrite
    · rw [hl, hget2, Option.getD_some]
      exact le_trans hjl (le_max_left _ _)
    · rw [hs, hget2, Option.getD_some]
      exact mem_setAdd_of_mem hjs
  · exact ⟨r, by rw [listGet_listSet_ne _ _ hu]; exact hget, hjr, hjw, hjl, hjs⟩

theorem endorse_establishes (cfg : StandardRelayDiscoveryConfig)
    (acc : List String × RelayMap) (inp : EndorseInput) :
    endorseApplied (relayEndorse cfg acc inp).2 inp := by
  rw [endorse_snd]
  exact updRec_applied acc.2 inp

theorem endorse_preserves (cfg : StandardRelayDiscoveryConfig)
    (acc : List String × RelayMap) (inp j : EndorseInput)
    (h : endorseApplied acc.2 j) :
    endorseApplied (relayEndorse cfg acc inp).2 j := by
  rw [endorse_snd]
  exact applied_listSet_updRec acc.2 inp j h

theorem updRec_of_applied {m : RelayMap} {inp : EndorseInput}
    (h : endorseApplied m inp) :
    ∃ r, listGet m inp.url = some r ∧ updRec m inp = r := by
  obtain ⟨r, hget, hr, hw, hl, hs⟩ := h
  obtain ⟨fr, fw, fl, fs⟩ := updRec_fields m inp
  refine ⟨r, hget, ?_⟩
  have e1 : (updRec m inp).readRecommendations = r.readRecommendations := by
    rw [fr, hget, Option.getD_some]
    split
    · next hread => exact setAdd_of_mem (hr hread)
    · rfl
  have e2 : (updRec m inp).writeRecommendations = r.writeRecommendations := by
    rw [fw, hget, Option.getD_some]
    split
    · next hwrite => exact setAdd_of_mem (hw hwrite)
    · rfl
  have e3 : (updRec m inp).lastSeen = r.lastSeen := by
    rw [fl, hget, Option.getD_some]
    exact max_eq_left hl
  have e4 : (updRec m inp).sources = r.sources := by
    rw [fs, hget, Option.getD_some]
    exact setAdd_of_mem hs
  calc updRec m inp
      = ⟨(updRec m inp).readRecommendations, (updRec m inp).writeRecommendations,
          (updRec m inp).lastSeen, (updRec m inp).sources⟩ := rfl
    _ = ⟨r.readRecommendations, r.writeRecommendations, r.lastSeen, r.sources⟩ := by
          rw [e1, e2, e3, e4]
    _ = r := rfl

theorem endorse_applied_id (cfg : StandardRelayDiscoveryConfig)
    (acc : List String × RelayMap) (inp : EndorseInput)
    (h : endorseApplied acc.2 inp) :
    (relayEndorse cfg acc inp).2 = acc.2 := by
  rw [endorse_snd]
  obtain ⟨r, hget, hupd⟩ := updRec_of_applied h
  rw [hupd]
  exact listSet_listGet_eq hget

theorem endorseAll_preserves (cfg : StandardRelayDiscoveryConfig)
    (inputs : List EndorseInput) (acc : List String × RelayMap) (j : EndorseInput)
    (h : endorseApplied acc.2 j) :
    endorseApplied (endorseAll cfg inputs acc).2 j := by
  induction inputs generalizing acc with
  | nil => exact h
  | cons inp inputs ih =>
    unfold endorseAll at ih ⊢
    rw [List.foldl_cons]
    exact ih _ (endorse_preserves cfg acc inp j h)

theorem endorseAll_establishes (cfg : StandardRelayDiscoveryConfig)
    (inputs : List EndorseInput) (acc : List String × RelayMap) :
    ∀ inp ∈ inputs, endorseApplied (endorseAll cfg inputs acc).2 inp := by
  induction inputs generalizing acc with
  | nil => intro inp hi; cases hi
  | cons inp0 inputs ih =>
    intro inp hi
    unfold endorseAll at ih ⊢
    rw [List.foldl_cons]
    rcases List.mem_cons.mp hi with rfl | hi2
    · exact endorseAll_preserves cfg inputs _ inp (endorse_establishes cfg acc inp)
    · exact ih _ inp hi2

theorem endorseAll_id (cfg : StandardRelayDiscoveryConfig)
    (inputs : List EndorseInput) (acc : List String × RelayMap)
    (h : ∀ inp ∈ inputs, endorseApplied acc.2 inp) :
    (endorseAll cfg inputs acc).2 = acc.2 := by
  induction inputs generalizing acc with
  | nil => rfl
  | cons inp inputs ih =>
    unfold endorseAll at ih ⊢
    rw [List.foldl_cons]
    have hid : (relayEndorse cfg acc inp).2 = acc.2 :=
      endorse_applied_id cfg acc inp (h inp (by simp))
    rw [ih (relayEndorse cfg acc inp)
      (fun j hj => by rw [hid]; exact h j (by simp [hj])), hid]

theorem endorseAll_twice (cfg : StandardRelayDiscoveryConfig)
    (inputs : List EndorseInput) (m : RelayMap) :
    (endorseAll cfg inputs ([], (endorseAll cfg inputs ([], m)).2)).2
      = (endorseAll cfg inputs ([], m)).2 :=
  endorseAll_id cfg inputs _
    (fun inp hi => endorseAll_establishes cfg inputs ([], m) inp hi)

theorem contactStep_mono (fp : List String) (tag : List String) {x : String}
    (h : x ∈ fp) : x ∈ contactFollowedStep fp tag := by
  unfold contactFollowedStep
  cases tagFollowPk tag with
  | none => exact h
  | some pk => exact mem_setAdd_of_mem h

theorem contactStep_establishes (fp : List String) (tag : List String) {pk : String}
    (h : tagFollowPk tag = some pk) : pk ∈ contactFollowedStep fp tag := by
  unfold contactFollowedStep
  rw [h]
  exact setAdd_mem_self _ _

theorem contactStep_id (fp : List String) (tag : List String)
    (h : ∀ pk, tagFollowPk tag = some pk → pk ∈ fp) :
    contactFollowedStep fp tag = fp := by
  unfold contactFollowedStep
  cases htag : tagFollowPk tag with
  | none => rfl
  | some pk => exact setAdd_of_mem (h pk htag)

theorem pkFold_mono (tags : List (List String)) (fp : List String) {x : String}
    (h : x ∈ fp) : x ∈ tags.foldl contactFollowedStep fp := by
  induction tags generalizing fp with
  | nil => exact h
  | cons tag tags ih =>
    rw [List.foldl_cons]
    exact ih _ (contactStep_mono fp tag h)

theorem pkFold_establishes (tags : List (List String)) (fp : List String) :
    ∀ tag ∈ tags, ∀ pk, tagFollowPk tag = some pk →
      pk ∈ tags.foldl contactFollowedStep fp := by
  induction tags generalizing fp with
  | nil => intro tag ht; cases ht
  | cons tag0 tags ih =>
    intro tag ht pk hpk
    rw [List.foldl_cons]
    rcases List.mem_cons.mp ht with rfl | ht2
    · exact pkFold_mono tags _ (contactStep_establishes fp tag hpk)
    · exact ih _ tag ht2 pk hpk

theorem pkFold_id (tags : List (List String)) (fp : List String)
    (h : ∀ tag ∈ tags, ∀ pk, tagFollowPk tag = some pk → pk ∈ fp) :
    tags.foldl contactFollowedStep fp = fp := by
  induction tags generalizing fp with
  | nil => rfl
  | cons tag0 tags ih =>
    rw [List.foldl_cons, contactStep_id fp tag0 (h tag0 (by simp))]
    exact ih _ fun tag ht pk hpk => h tag (by simp [ht]) pk hpk

theorem pkFold_twice (tags : List (List String)) (fp : List String) :
    tags.foldl contactFollowedStep (tags.foldl contactFollowedStep fp)
      = tags.foldl contactFollowedStep fp :=
  pkFold_id tags _ fun tag ht pk hpk => pkFold_establishes tags fp tag ht pk hpk

/-- C10: redelivery idempotence of the Recommendation Engine — processing
the same event a second time through the same signal-source operation
leaves the discovery state (endorser sets, `lastSeen`, sources and the
followed-pubkeys set) unchanged. -/
theorem claim_discovery_idempotent (cfg : StandardRelayDiscoveryConfig)
    (st : DiscoveryState) (e : NostrEvent) :
    (processNip65Event cfg (processNip65Event cfg st e).2 e).2
      = (processNip65Event cfg st e).2 ∧
    (processNip19Hints cfg (processNip19Hints cfg st e).2 e).2
      = (processNip19Hints cfg st e).2 ∧
    (processContactEvent cfg (processContactEvent cfg st e).2 e).2
      = (processContactEvent cfg st e).2 := by
  refine ⟨?_, ?_, ?_⟩
  · by_cases hg : ¬ cfg.nip65Enabled ∨ e.kind ≠ 10002
    · unfold processNip65Event
      simp only [if_pos hg]
    · unfold processNip65Event
      simp only [if_neg hg]
      rw [endorseAll_twice]
  · by_cases hg : ¬ cfg.nip19Enabled
    · unfold processNip19Hints
      simp only [if_pos hg]
    · unfold processNip19Hints
      simp only [if_neg hg]
      rw [endorseAll_twice]
  · by_cases hg : ¬ cfg.followContactRelays ∨ e.kind ≠ 3
    · unfold processContactEvent
      simp only [if_pos hg]
    · unfold processContactEvent
      simp only [if_neg hg]
      rw [endorseAll_twice, pkFold_twice]

/-- C2 counterexample: with the default threshold 2, `alice`'s unmarked
announcement alone takes `wss://relay.one` to a combined count of 2, and
reprocessing the very same event — which makes no endpoint newly cross —
returns `[wss://relay.one]` rather than the empty list the claim
predicts. -/
theorem claim_new_relays_cx :
    defaultStandardConfig.minFolloweeRecommendations = 2 ∧
    countRecs stAliceBoth.relayRecommendations "wss://relay.one" = 2 ∧
    (processNip65Event defaultStandardConfig stAliceBoth evAliceBoth).1
      = ["wss://relay.one"] := by
  decide

/-- C2 amended: exact characterization of each signal-source operation's
return list — a URL is returned iff the operation's guard passes, the URL
is a touched (recognized, valid, non-blacklisted) endpoint of the event,
and its combined endorsement count in the post-call table is at or above
the threshold. In particular an endpoint crossing the threshold during the
call is returned, an endpoint already at the threshold before the call is
returned again whenever touched, and the list is empty exactly when no
touched endpoint meets the threshold after its update. -/
theorem claim_new_relays_characterization :
    (∀ (cfg : StandardRelayDiscoveryConfig) (st : DiscoveryState) (e : NostrEvent)
        (url : String),
        url ∈ (processNip65Event cfg st e).1 ↔
          cfg.nip65Enabled = true ∧ e.kind = 10002 ∧
          (∃ en ∈ parseNip65RelayList e, en.url = url) ∧
          isBlacklisted cfg url = false ∧
          cfg.minFolloweeRecommendations
            ≤ countRecs (processNip65Event cfg st e).2.relayRecommendations url) ∧
    (∀ (cfg : StandardRelayDiscoveryConfig) (st : DiscoveryState) (e : NostrEvent)
        (url : String),
        url ∈ (processNip19Hints cfg st e).1 ↔
          cfg.nip19Enabled = true ∧
          url ∈ extractNip19RelayHints e.content ∧
          isBlacklisted cfg url = false ∧
          cfg.minFolloweeRecommendations
            ≤ countRecs (processNip19Hints cfg st e).2.relayRecommendations url) ∧
    (∀ (cfg : StandardRelayDiscoveryConfig) (st : DiscoveryState) (e : NostrEvent)
        (url : String),
        url ∈ (processContactEvent cfg st e).1 ↔
          cfg.followContactRelays = true ∧ e.kind = 3 ∧
          (∃ u ∈ contactRelayStrings e.content, isValidRelayUrl u = true ∧
            isBlacklisted cfg u = false ∧ normalizeRelayUrl u = url) ∧
          cfg.minFolloweeRecommendations
            ≤ countRecs (processContactEvent cfg st e).2.relayRecommendations url) := by
  refine ⟨?_, ?_, ?_⟩
  · intro cfg st e url
    by_cases hg : ¬ cfg.nip65Enabled ∨ e.kind ≠ 10002
    · constructor
      · intro h
        unfold processNip65Event at h
        rw [if_pos hg] at h
        cases h
      · rintro ⟨he, hk, -, -, -⟩
        rcases hg with h1 | h1
        · exact absurd he h1
        · exact absurd hk h1
    · unfold processNip65Event
      simp only [if_neg hg]
      push_neg at hg
      constructor
      · intro h
        rcases endorseAll_fst_sources cfg _ _ url h with h0 | ⟨inp, hinp, hu⟩
        · cases h0
        · obtain ⟨en, henf, hfe⟩ := List.mem_map.mp hinp
          obtain ⟨hen, hpen⟩ := List.mem_filter.mp henf
          have hurl : en.url = url := (congrArg EndorseInput.url hfe).trans hu
          have hpen2 : (! isBlacklisted cfg en.url) = true := hpen
          have hblk2 : isBlacklisted cfg en.url = false := by
            cases hb : isBlacklisted cfg en.url
            · rfl
            · rw [hb] at hpen2
              exact absurd hpen2 (by decide)
          refine ⟨hg.1, hg.2, ⟨en, hen, hurl⟩, by rw [← hurl]; exact hblk2, ?_⟩
          rcases endorseAll_sound cfg _ _ url h with h0 | h0
          · cases h0
          · exact h0
      · rintro ⟨-, -, ⟨en, hen, hu⟩, hblk, hcnt⟩
        apply endorseAll_complete_post cfg _ _ url ?_ hcnt
        refine ⟨⟨en.url, en.pubkey, en.read, en.write, en.timestamp,
          RelaySource.nip65⟩, ?_, hu⟩
        apply List.mem_map.mpr
        refine ⟨en, ?_, rfl⟩
        apply List.mem_filter.mpr
        refine ⟨hen, ?_⟩
        rw [hu]
        simp [hblk]
  · intro cfg st e url
    by_cases hg : ¬ cfg.nip19Enabled
    · constructor
      · intro h
        unfold processNip19Hints at h
        rw [if_pos hg] at h
        cases h
      · rintro ⟨he, -, -, -⟩
        exact absurd he hg
    · unfold processNip19Hints
      simp only [if_neg hg]
      push_neg at hg
      constructor
      · intro h
        rcases endorseAll_fst_sources cfg _ _ url h with h0 | ⟨inp, hinp, hu⟩
        · cases h0
        · obtain ⟨ru, hruf, hfe⟩ := List.mem_map.mp hinp
          obtain ⟨hru, hpru⟩ := List.mem_filter.mp hruf
          have hurl : ru = url := (congrArg EndorseInput.url hfe).trans hu
          subst hurl
          have hpru2 : (! isBlacklisted cfg ru) = true := hpru
          have hblk2 : isBlacklisted cfg ru = false := by
            cases hb : isBlacklisted cfg ru
            · rfl
            · rw [hb] at hpru2
              exact absurd hpru2 (by decide)
          refine ⟨hg, hru, hblk2, ?_⟩
          rcases endorseAll_sound cfg _ _ ru h with h0 | h0
          · cases h0
          · exact h0
      · rintro ⟨-, htouch, hblk, hcnt⟩
        apply endorseAll_complete_post cfg _ _ url ?_ hcnt
        refine ⟨⟨url, e.pubkey, true, false, e.created_at, RelaySource.nip19⟩, ?_, rfl⟩
        apply List.mem_map.mpr
        refine ⟨url, ?_, rfl⟩
        apply List.mem_filter.mpr
        exact ⟨htouch, by simp [hblk]⟩
  · intro cfg st e url
    by_cases hg : ¬ cfg.followContactRelays ∨ e.kind ≠ 3
    · constructor
      · intro h
        unfold processContactEvent at h
        rw [if_pos hg] at h
        cases h
      · rintro ⟨he, hk, -, -⟩
        rcases hg with h1 | h1
        · exact absurd he h1
        · exact absurd hk h1
    · unfold processContactEvent
      simp only [if_neg hg]
      push_neg at hg
      constructor
      · intro h
        rcases endorseAll_fst_sources cfg _ _ url h with h0 | ⟨inp, hinp, hu⟩
        · cases h0
        · obtain ⟨ru, hruf, hfe⟩ := List.mem_map.mp hinp
          obtain ⟨hru, hpru⟩ := List.mem_filter.mp hruf
          have hurl : normalizeRelayUrl ru = url := (congrArg EndorseInput.url hfe).trans hu
          have hpru2 : (isValidRelayUrl ru && ! isBlacklisted cfg ru) = true := hpru
          rw [Bool.and_eq_true] at hpru2
          have hblk2 : isBlacklisted cfg ru = false := by
            cases hb : isBlacklisted cfg ru
            · rfl
            · rw [hb] at hpru2
              exact absurd hpru2.2 (by decide)
          refine ⟨hg.1, hg.2, ⟨ru, hru, hpru2.1, hblk2, hurl⟩, ?_⟩
          rcases endorseAll_sound cfg _ _ url h with h0 | h0
          · cases h0
          · exact h0
      · rintro ⟨-, -, ⟨ru, hru, hval, hblk, hurl⟩, hcnt⟩
        apply endorseAll_complete_post cfg _ _ url ?_ hcnt
        refine ⟨⟨normalizeRelayUrl ru, e.pubkey, true, false, e.created_at,
          RelaySource.contacts⟩, ?_, hurl⟩
        apply List.mem_map.mpr
        refine ⟨ru, ?_, rfl⟩
        apply List.mem_filter.mpr
        exact ⟨hru, by simp [hval, hblk]⟩

/-- C2 witness: reprocessing `alice`'s announcement against the state it
already produced satisfies the characterization's right side concretely, so
the already-promoted relay is returned again. -/
theorem claim_new_relays_characterization_witness :
    "wss://relay.one" ∈ (processNip65Event defaultStandardConfig stAliceBoth evAliceBoth).1 :=
  (claim_new_relays_characterization.1 defaultStandardConfig stAliceBoth evAliceBoth
    "wss://relay.one").mpr (by decide)

theorem takeWhile_takeWhile_subset {p q : Char → Bool} (l : List Char) :
    ∀ c ∈ (l.takeWhile q).takeWhile p, c ∈ l.takeWhile q :=
  fun c hc => List.takeWhile_subset _ hc

theorem bnot_beq_true_of_ne {c d : Char} (h : c ≠ d) : (! (c == d)) = true := by
  simp [h]

theorem parse_wf {cs : List Char} {p : ParsedUrl} (h : parseUrlChars cs = some p) :
    WFUrl p := by
  unfold parseUrlChars at h
  dsimp only at h
  split at h
  case _ c0 ctl d1 d2 d3 rest heq1 heq2 =>
    split at h
    case _ hguard =>
      obtain ⟨hd1, hd2, hd3, halpha, hall⟩ := hguard
      split at h
      case _ hhost => exact absurd h (by simp)
      case _ hhost =>
        have hschemeAll : ∀ c ∈ lowerChars (c0 :: ctl), isSchemeChar c = true := by
          intro c hc
          obtain ⟨c1, hc1, rfl⟩ := List.mem_map.mp hc
          exact isSchemeChar_toLower (List.all_eq_true.mp hall c1 hc1)
        have hhostAll : ∀ c ∈ lowerChars (List.takeWhile (fun c => !c == ':')
            (List.takeWhile (fun c => !isAuthorityStop c) rest)),
            isAuthorityStop c = false ∧ c ≠ ':' := by
          intro c hc
          obtain ⟨c1, hc1, rfl⟩ := List.mem_map.mp hc
          have hne : c1 ≠ ':' := by
            have := List.mem_takeWhile_imp hc1
            simpa using this
          have hstop : isAuthorityStop c1 = false := by
            have hc2 := List.takeWhile_subset _ hc1
            have := List.mem_takeWhile_imp hc2
            simpa using this
          exact ⟨notStop_toLower hstop, ne_colon_toLower hne⟩
        have hhostNe : lowerChars (List.takeWhile (fun c => !c == ':')
            (List.takeWhile (fun c => !isAuthorityStop c) rest)) ≠ [] := by
          intro hz
          exact hhost (List.map_eq_nil.mp hz)
        have hpath : ∀ after : List Char, ∃ tl,
            (match after with
              | [] => ['/']
              | c :: _ => if c = '/' then after else '/' :: after) = '/' :: tl := by
          intro after
          match after with
          | [] => exact ⟨[], rfl⟩
          | c :: tail =>
            by_cases hcc : c = '/'
            · subst hcc
              exact ⟨tail, by simp⟩
            · exact ⟨c :: tail, by simp [hcc]⟩
        split at h
        case _ hdrop =>
          rw [Option.some_inj] at h
          subst h
          refine ⟨⟨c0.toLower, lowerChars ctl, rfl, isAlpha_toLower halpha⟩,
            hschemeAll, lowerChars_idem _, hhostNe, hhostAll, lowerChars_idem _,
            Or.inl rfl, hpath _⟩
        case _ hd ds hdrop =>
          split at h
          case _ hds =>
            rw [Option.some_inj] at h
            subst h
            refine ⟨⟨c0.toLower, lowerChars ctl, rfl, isAlpha_toLower halpha⟩,
              hschemeAll, lowerChars_idem _, hhostNe, hhostAll, lowerChars_idem _,
              ?_, hpath _⟩
            by_cases hdef : ds = defaultPortFor (lowerChars (c0 :: ctl))
            · rw [if_pos hdef]
              exact Or.inl rfl
            · rw [if_neg hdef]
              exact Or.inr ⟨fun c hc => List.all_eq_true.mp hds c hc, hdef⟩
          case _ => exact absurd h (by simp)
    case _ => exact absurd h (by simp)
  case _ => exact absurd h (by simp)

theorem takeWhile_nil_of_tail (tail : List Char)
    (ht : tail = [] ∨ ∃ tl, tail = '/' :: tl) :
    tail.takeWhile (fun c => ! isAuthorityStop c) = [] := by
  rcases ht with rfl | ⟨tl, rfl⟩
  · rfl
  · exact List.takeWhile_cons_of_neg (by decide)

theorem parse_shape (sch host port tail : List Char)
    (hs0 : ∃ c0 ctl, sch = c0 :: ctl ∧ c0.isAlpha = true)
    (hs1 : ∀ c ∈ sch, isSchemeChar c = true)
    (hs2 : lowerChars sch = sch)
    (hh0 : host ≠ [])
    (hh1 : ∀ c ∈ host, isAuthorityStop c = false ∧ c ≠ ':')
    (hh2 : lowerChars host = host)
    (hp : port = [] ∨ ((∀ c ∈ port, c.isDigit = true) ∧ port ≠ defaultPortFor sch))
    (ht : tail = [] ∨ ∃ tl, tail = '/' :: tl) :
    ∃ q, parseUrlChars (sch ++ ':' :: '/' :: '/' :: (host
        ++ ((if port = [] then [] else ':' :: port) ++ tail))) = some q
      ∧ q.host = host := by
  obtain ⟨c0, ctl, rfl, halpha⟩ := hs0
  have hguard : (':' : Char) = ':' ∧ ('/' : Char) = '/' ∧ ('/' : Char) = '/'
      ∧ c0.isAlpha = true ∧ (c0 :: ctl).all isSchemeChar = true :=
    ⟨rfl, rfl, rfl, halpha, List.all_eq_true.mpr hs1⟩
  have hschNoColon : ∀ c ∈ (c0 :: ctl), (! (c == ':')) = true :=
    fun c hc => bnot_beq_true_of_ne (schemeChar_ne_colon (hs1 c hc))
  have hhostNoColon : ∀ c ∈ host, (! (c == ':')) = true :=
    fun c hc => bnot_beq_true_of_ne (hh1 c hc).2
  have hhostNoStop : ∀ c ∈ host, (! isAuthorityStop c) = true := by
    intro c hc
    simp [(hh1 c hc).1]
  by_cases hpe : port = []
  · subst hpe
    rw [if_pos rfl, List.nil_append]
    have hTW : ((c0 :: ctl) ++ ':' :: '/' :: '/' :: (host ++ tail)).takeWhile
        (fun c => ! (c == ':')) = c0 :: ctl := by
      rw [takeWhile_append_all hschNoColon, List.takeWhile_cons_of_neg (by decide),
        List.append_nil]
    have hAuth : (host ++ tail).takeWhile (fun c => ! isAuthorityStop c) = host := by
      rw [takeWhile_append_all hhostNoStop, takeWhile_nil_of_tail tail ht,
        List.append_nil]
    have hHostRaw : host.takeWhile (fun c => ! (c == ':')) = host := by
      have h2 := @takeWhile_append_all Char (fun c => ! (c == ':')) host [] hhostNoColon
      rw [List.append_nil] at h2
      rw [h2, List.takeWhile_nil, List.append_nil]
    have hAfter : (host ++ tail).drop host.length = tail := List.drop_left _ _
    unfold parseUrlChars
    dsimp only
    rw [hTW, List.drop_left]
    dsimp only
    rw [if_pos hguard]
    rw [hAuth, hHostRaw, hAfter]
    rw [if_neg hh0, List.drop_length]
    exact ⟨_, rfl, hh2⟩
  · rcases hp with hpz | ⟨hdig, hdef⟩
    · exact absurd hpz hpe
    rw [if_neg hpe]
    have hportNoStop : ∀ c ∈ port, (! isAuthorityStop c) = true := by
      intro c hc
      simp [digit_notStop (hdig c hc)]
    have hportNoColon : ∀ c ∈ port, (! (c == ':')) = true :=
      fun c hc => bnot_beq_true_of_ne (digit_ne_colon (hdig c hc))
    have hTW : ((c0 :: ctl) ++ ':' :: '/' :: '/' :: (host ++ (':' :: port ++ tail))).takeWhile
        (fun c => ! (c == ':')) = c0 :: ctl := by
      rw [takeWhile_append_all hschNoColon, List.takeWhile_cons_of_neg (by decide),
        List.append_nil]
    have hconsColon : List.takeWhile (fun c => ! isAuthorityStop c) (':' :: (port ++ tail))
        = ':' :: List.takeWhile (fun c => ! isAuthorityStop c) (port ++ tail) :=
      List.takeWhile_cons_of_pos (by decide)
    have hAuth : (host ++ (':' :: port ++ tail)).takeWhile
        (fun c => ! isAuthorityStop c) = host ++ ':' :: port := by
      rw [takeWhile_append_all hhostNoStop]
      rw [show (':' :: port ++ tail : List Char) = ':' :: (port ++ tail) from rfl]
      rw [hconsColon, takeWhile_append_all hportNoStop, takeWhile_nil_of_tail tail ht,
        List.append_nil]
    have hconsColon2 : List.takeWhile (fun c => ! (c == ':')) (':' :: port)
        = [] := List.takeWhile_cons_of_neg (by decide)
    have hHostRaw : (host ++ ':' :: port).takeWhile (fun c => ! (c == ':')) = host := by
      rw [takeWhile_append_all hhostNoColon, hconsColon2, List.append_nil]
    have hAfter : (host ++ (':' :: port ++ tail)).drop (host ++ ':' :: port).length
        = tail := by
      rw [show host ++ (':' :: port ++ tail) = (host ++ ':' :: port) ++ tail by
        simp [List.append_assoc], List.drop_left]
    have hPP : (host ++ ':' :: port).drop host.length = ':' :: port :=
      List.drop_left _ _
    unfold parseUrlChars
    dsimp only
    rw [hTW, List.drop_left]
    dsimp only
    rw [if_pos hguard]
    rw [hAuth, hHostRaw, hAfter]
    rw [if_neg hh0, hPP]
    dsimp only
    rw [if_pos (List.all_eq_true.mpr hdig)]
    rw [hs2]
    rw [if_neg hdef]
    exact ⟨_, rfl, hh2⟩

theorem stripTrailingSlash_append {pre path : List Char} (hne : path ≠ []) :
    stripTrailingSlash (pre ++ path) = pre ++ stripTrailingSlash path := by
  unfold stripTrailingSlash
  rw [List.getLast?_append]
  obtain ⟨x, hx⟩ : ∃ x, path.getLast? = some x := by
    cases hpl : path.getLast? with
    | none => exact absurd (List.getLast?_eq_none_iff.mp hpl) hne
    | some x => exact ⟨x, rfl⟩
  rw [hx]
  have hred : (some x : Option Char).or pre.getLast? = some x := rfl
  rw [hred]
  by_cases hslash : x = '/'
  · subst hslash
    rw [if_pos rfl, if_pos rfl, List.dropLast_append_of_ne_nil _ hne]
  · have hnx : ¬ ((some x : Option Char) = some '/') := by simpa using hslash
    rw [if_neg hnx, if_neg hnx]

theorem strip_path_tail {path : List Char} {tl : List Char} (hpath : path = '/' :: tl) :
    stripTrailingSlash path = [] ∨ ∃ t2, stripTrailingSlash path = '/' :: t2 := by
  subst hpath
  unfold stripTrailingSlash
  by_cases hlast : ('/' :: tl).getLast? = some '/'
  · rw [if_pos hlast]
    cases tl with
    | nil => exact Or.inl rfl
    | cons a t =>
      right
      refine ⟨(a :: t).dropLast, ?_⟩
      rw [List.dropLast_cons_of_ne_nil (by simp)]
  · rw [if_neg hlast]
    exact Or.inr ⟨tl, rfl⟩

theorem serialize_strip_parse (p : ParsedUrl) (hwf : WFUrl p) :
    ∃ q, parseUrlChars (stripTrailingSlash (serializeUrl p)) = some q ∧ q.host = p.host := by
  obtain ⟨hs0, hs1, hs2, hh0, hh1, hh2, hp, tl, hpath⟩ := hwf
  have hser : serializeUrl p
      = (p.scheme ++ ':' :: '/' :: '/' :: (p.host
          ++ ((if p.port = [] then [] else ':' :: p.port) ++ []))) ++ p.path := by
    unfold serializeUrl
    simp [List.append_assoc]
  have hstrip : stripTrailingSlash (serializeUrl p)
      = p.scheme ++ ':' :: '/' :: '/' :: (p.host
          ++ ((if p.port = [] then [] else ':' :: p.port) ++ stripTrailingSlash p.path)) := by
    rw [hser, stripTrailingSlash_append (by rw [hpath]; simp)]
    simp [List.append_assoc]
  rw [hstrip]
  exact parse_shape p.scheme p.host p.port (stripTrailingSlash p.path)
    hs0 hs1 hs2 hh0 hh1 hh2 hp (strip_path_tail hpath)

theorem normalize_parse_host {u : String} {p : ParsedUrl} (h : parseUrl u = some p) :
    ∃ q, parseUrl (normalizeRelayUrl u) = some q ∧ q.host = p.host := by
  have hwf := @parse_wf u.data p h
  unfold normalizeRelayUrl
  rw [h]
  exact serialize_strip_parse p hwf

theorem isValid_parse {u : String} (h : isValidRelayUrl u = true) :
    ∃ p, parseUrl u = some p := by
  unfold isValidRelayUrl at h
  cases hp : parseUrl u with
  | none => rw [hp] at h; cases h
  | some p => exact ⟨p, rfl⟩

theorem isBlacklisted_normalize (cfg : StandardRelayDiscoveryConfig) {u : String}
    {p : ParsedUrl} (hparse : parseUrl u = some p) :
    isBlacklisted cfg (normalizeRelayUrl u) = isBlacklisted cfg u := by
  obtain ⟨q, hq, hhost⟩ := normalize_parse_host hparse
  unfold isBlacklisted
  rw [hparse, hq]
  dsimp only
  rw [hhost]

theorem endorse_noBlacklisted (cfg : StandardRelayDiscoveryConfig)
    (acc : List String × RelayMap) (inp : EndorseInput)
    (hi : isBlacklisted cfg inp.url = false)
    (h : noBlacklisted cfg acc.2) : noBlacklisted cfg (relayEndorse cfg acc inp).2 := by
  rw [endorse_snd]
  intro url r hmem
  rcases mem_listSet hmem with heq | hmem2
  · rw [Prod.mk.injEq] at heq
    obtain ⟨rfl, -⟩ := heq
    exact hi
  · exact h url r hmem2

theorem endorseAll_noBlacklisted (cfg : StandardRelayDiscoveryConfig)
    (inputs : List EndorseInput) (acc : List String × RelayMap)
    (hi : ∀ inp ∈ inputs, isBlacklisted cfg inp.url = false)
    (h : noBlacklisted cfg acc.2) : noBlacklisted cfg (endorseAll cfg inputs acc).2 := by
  induction inputs generalizing acc with
  | nil => exact h
  | cons inp inputs ih =>
    unfold endorseAll at ih ⊢
    rw [List.foldl_cons]
    exact ih _ (fun j hj => hi j (by simp [hj]))
      (endorse_noBlacklisted cfg acc inp (hi inp (by simp)) h)

theorem applyOp_noBlacklisted (cfg : StandardRelayDiscoveryConfig) (st : DiscoveryState)
    (op : DiscoveryOp) (h : noBlacklisted cfg st.relayRecommendations) :
    noBlacklisted cfg (applyDiscoveryOp cfg st op).relayRecommendations := by
  cases op with
  | nip65 e =>
    show noBlacklisted cfg (processNip65Event cfg st e).2.relayRecommendations
    by_cases hg : ¬ cfg.nip65Enabled ∨ e.kind ≠ 10002
    · unfold processNip65Event
      rw [if_pos hg]
      exact h
    · unfold processNip65Event
      simp only [if_neg hg]
      apply endorseAll_noBlacklisted cfg _ _ ?_ h
      intro inp hi
      obtain ⟨en, hen, rfl⟩ := List.mem_map.mp hi
      have := (List.mem_filter.mp hen).2
      simpa using this
  | nip19 e =>
    show noBlacklisted cfg (processNip19Hints cfg st e).2.relayRecommendations
    by_cases hg : ¬ cfg.nip19Enabled
    · unfold processNip19Hints
      rw [if_pos hg]
      exact h
    · unfold processNip19Hints
      simp only [if_neg hg]
      apply endorseAll_noBlacklisted cfg _ _ ?_ h
      intro inp hi
      obtain ⟨u, hu, rfl⟩ := List.mem_map.mp hi
      have := (List.mem_filter.mp hu).2
      simpa using this
  | contact e =>
    show noBlacklisted cfg (processContactEvent cfg st e).2.relayRecommendations
    by_cases hg : ¬ cfg.followContactRelays ∨ e.kind ≠ 3
    · unfold processContactEvent
      rw [if_pos hg]
      exact h
    · unfold processContactEvent
      simp only [if_neg hg]
      apply endorseAll_noBlacklisted cfg _ _ ?_ h
      intro inp hi
      obtain ⟨u, hu, rfl⟩ := List.mem_map.mp hi
      have hcond := (List.mem_filter.mp hu).2
      rw [Bool.and_eq_true] at hcond
      obtain ⟨hval, hblk⟩ := hcond
      obtain ⟨p, hp⟩ := isValid_parse hval
      show isBlacklisted cfg (normalizeRelayUrl u) = false
      rw [isBlacklisted_normalize cfg hp]
      simpa using hblk

theorem runDiscovery_noBlacklisted (cfg : StandardRelayDiscoveryConfig)
    (ops : List DiscoveryOp) :
    noBlacklisted cfg (runDiscovery cfg ops).relayRecommendations := by
  unfold runDiscovery
  have hgen : ∀ (st : DiscoveryState), noBlacklisted cfg st.relayRecommendations →
      noBlacklisted cfg (ops.foldl (applyDiscoveryOp cfg) st).relayRecommendations := by
    induction ops with
    | nil => exact fun st h => h
    | cons op ops ih =>
      intro st h
      rw [List.foldl_cons]
      exact ih _ (applyOp_noBlacklisted cfg st op h)
  exact hgen DiscoveryState.empty (fun url r hmem => absurd hmem (by simp [DiscoveryState.empty]))

theorem mem_stableInsert {α : Type} (le : α → α → Bool) (x a : α) (l : List α) :
    a ∈ stableInsert le x l ↔ a = x ∨ a ∈ l := by
  induction l with
  | nil => simp [stableInsert]
  | cons y ys ih =>
    unfold stableInsert
    split
    · simp
    · simp [ih]
      tauto

theorem mem_stableSort {α : Type} (le : α → α → Bool) (a : α) (l : List α) :
    a ∈ stableSort le l ↔ a ∈ l := by
  induction l with
  | nil => simp [stableSort]
  | cons x xs ih =>
    unfold stableSort
    rw [mem_stableInsert]
    simp [ih]

theorem length_stableInsert {α : Type} (le : α → α → Bool) (x : α) (l : List α) :
    (stableInsert le x l).length = l.length + 1 := by
  induction l with
  | nil => rfl
  | cons y ys ih =>
    unfold stableInsert
    split
    · simp
    · simp [ih]

theorem length_stableSort {α : Type} (le : α → α → Bool) (l : List α) :
    (stableSort le l).length = l.length := by
  induction l with
  | nil => rfl
  | cons x xs ih =>
    unfold stableSort
    rw [length_stableInsert, ih]
    rfl

theorem recommended_mem {cfg : StandardRelayDiscoveryConfig} {st : DiscoveryState}
    {now : Int} {rec : RecommendedRelay}
    (h : rec ∈ getRecommendedRelays cfg st now) :
    ∃ r, (rec.url, r) ∈ st.relayRecommendations ∧
      now - r.lastSeen ≤ relayMaxAge cfg ∧
      cfg.minFolloweeRecommendations ≤ recTotal r := by
  unfold getRecommendedRelays at h
  have h2 := List.take_subset _ _ h
  rw [mem_stableSort] at h2
  obtain ⟨pair, hpair, hrec⟩ := List.mem_map.mp h2
  obtain ⟨hmem, hcond⟩ := List.mem_filter.mp hpair
  rw [Bool.and_eq_true, decide_eq_true_eq, decide_eq_true_eq] at hcond
  have hurl : rec.url = pair.1 := by rw [← hrec]; rfl
  refine ⟨pair.2, ?_, hcond.1, hcond.2⟩
  rw [hurl]
  simpa using hmem

/-- C8: the blacklist matching is exactly the spec policy — hostname equals
an entry, or is dot-suffixed by one, or starts with one — and every URL that
fails to parse is treated as blacklisted (fail-closed). -/
theorem claim_blacklist_matching :
    (∀ (cfg : StandardRelayDiscoveryConfig) (url : String),
        isBlacklisted cfg url = blacklistPolicySpec cfg url) ∧
    (∀ (cfg : StandardRelayDiscoveryConfig) (url : String),
        parseUrl url = none → isBlacklisted cfg url = true) := by
  constructor
  · intro cfg url
    unfold isBlacklisted blacklistPolicySpec
    cases hp : parseUrl url with
    | none => rfl
    | some p =>
      dsimp only
      have hfun : (fun domain : String => (p.host == domain.data
            || ('.' :: domain.data).isSuffixOf p.host || domain.data.isPrefixOf p.host))
          = (fun domain : String => decide (p.host = domain.data
            ∨ ('.' :: domain.data) <:+ p.host ∨ domain.data <+: p.host)) := by
        funext domain
        rw [Bool.eq_iff_iff]
        simp [List.isSuffixOf_iff_suffix, List.isPrefixOf_iff_prefix, or_assoc]
      rw [hfun]
  · intro cfg url h
    unfold isBlacklisted
    rw [h]

/-- C8 witness: an unparseable URL is rejected under the default
configuration. -/
theorem claim_blacklist_matching_witness :
    isBlacklisted defaultStandardConfig "not a url" = true :=
  claim_blacklist_matching.2 defaultStandardConfig "not a url" (by decide)

/-- C7: blacklist precedence — across every sequence of discovery calls
from the empty state, a blacklisted URL never enters the recommendation
table and never appears in `getRecommendedRelays`. -/
theorem claim_blacklist_precedence (cfg : StandardRelayDiscoveryConfig)
    (ops : List DiscoveryOp) (url : String) (now : Int)
    (hblk : isBlacklisted cfg url = true) :
    listGet (runDiscovery cfg ops).relayRecommendations url = none ∧
    url ∉ (getRecommendedRelays cfg (runDiscovery cfg ops) now).map
      (fun rec => rec.url) := by
  have hinv := runDiscovery_noBlacklisted cfg ops
  constructor
  · cases hg : listGet (runDiscovery cfg ops).relayRecommendations url with
    | none => rfl
    | some r =>
      have := hinv url r (listGet_mem hg)
      rw [this] at hblk
      cases hblk
  · intro hmem
    obtain ⟨rec, hrec, hrecurl⟩ := List.mem_map.mp hmem
    obtain ⟨r, hmem2, -, -⟩ := recommended_mem hrec
    rw [hrecurl] at hmem2
    have := hinv url r hmem2
    rw [this] at hblk
    cases hblk

/-- C7 witness: `wss://localhost` is blacklisted by default and stays out
of the table even after an announcement sequence endorsing it. -/
theorem claim_blacklist_precedence_witness :
    listGet (runDiscovery defaultStandardConfig
        [DiscoveryOp.nip65 ⟨"ev-l1", "alice", 1000, 10002, [["r", "wss://localhost"]], ""⟩,
         DiscoveryOp.nip65 ⟨"ev-l2", "bob", 1000, 10002, [["r", "wss://localhost"]], ""⟩]).relayRecommendations
      "wss://localhost" = none ∧
    "wss://localhost" ∉ (getRecommendedRelays defaultStandardConfig
      (runDiscovery defaultStandardConfig
        [DiscoveryOp.nip65 ⟨"ev-l1", "alice", 1000, 10002, [["r", "wss://localhost"]], ""⟩,
         DiscoveryOp.nip65 ⟨"ev-l2", "bob", 1000, 10002, [["r", "wss://localhost"]], ""⟩])
      1000000).map (fun rec => rec.url) :=
  claim_blacklist_precedence defaultStandardConfig _ "wss://localhost" 1000000 (by decide)

/-- C9: TTL eviction — an endpoint whose entries are all older than the
decay horizon is absent from the ranked output, is deleted by the lazy
read-time pruning, and is deleted by the periodic sweep. -/
theorem claim_ttl_eviction (cfg : StandardRelayDiscoveryConfig) (st : DiscoveryState)
    (now : Int) (url : String)
    (hstale : ∀ pr ∈ st.relayRecommendations, pr.1 = url →
        relayMaxAge cfg < now - pr.2.lastSeen) :
    url ∉ (getRecommendedRelays cfg st now).map (fun rec => rec.url) ∧
    listGet (readPrunedState cfg st now).relayRecommendations url = none ∧
    listGet (cleanup cfg st now).relayRecommendations url = none := by
  refine ⟨?_, ?_, ?_⟩
  · intro hmem
    obtain ⟨rec, hrec, hrecurl⟩ := List.mem_map.mp hmem
    obtain ⟨r, hmem2, hfresh, -⟩ := recommended_mem hrec
    rw [hrecurl] at hmem2
    exact absurd hfresh (not_le.mpr (hstale (url, r) hmem2 rfl))
  · apply listGet_filter_none
    intro r hmem
    rw [decide_eq_false_iff_not]
    exact not_le.mpr (hstale (url, r) hmem rfl)
  · apply listGet_filter_none
    intro r hmem
    rw [decide_eq_false_iff_not]
    exact not_le.mpr (hstale (url, r) hmem rfl)

/-- C9 witness: the one-announcement state read long after its horizon. -/
theorem claim_ttl_eviction_witness :
    "wss://relay.one" ∉ (getRecommendedRelays defaultStandardConfig stAliceBoth
        staleNow).map (fun rec => rec.url) ∧
    listGet (readPrunedState defaultStandardConfig stAliceBoth
        staleNow).relayRecommendations "wss://relay.one" = none ∧
    listGet (cleanup defaultStandardConfig stAliceBoth
        staleNow).relayRecommendations "wss://relay.one" = none :=
  claim_ttl_eviction defaultStandardConfig stAliceBoth staleNow "wss://relay.one"
    (by decide)


/-- C1 counterexample: with the default threshold 2, a single distinct
endorsing author (`alice`, no marker) is counted once in each endorser
set, so her endorsement alone reaches the combined count 2 and the
endpoint appears in the ranked output despite having exactly one distinct
endorsing author. -/
theorem claim_promotion_threshold_cx :
    defaultStandardConfig.minFolloweeRecommendations = 2 ∧
    listGet stAliceBoth.relayRecommendations "wss://relay.one"
      = some ⟨["alice"], ["alice"], 1000000, [RelaySource.nip65]⟩ ∧
    distinctEndorsers ⟨["alice"], ["alice"], 1000000, [RelaySource.nip65]⟩ = 1 ∧
    "wss://relay.one" ∈ (getRecommendedRelays defaultStandardConfig stAliceBoth
        1000000).map (fun rec => rec.url) := by
  decide

/-- C1 amended: promotion is governed by the combined endorsement count
(read-set size plus write-set size), not by distinct authors — an endpoint
whose every entry has a combined count below the threshold never appears
in the ranked output, and an endpoint with a fresh entry at or above the
threshold appears whenever the qualifying entries fit within `maxRelays`.
A second distinct endorsing author always lifts the count to the
threshold 2, but a single author endorsing both read and write reaches it
too. -/
theorem claim_promotion_threshold_amended :
    (∀ (cfg : StandardRelayDiscoveryConfig) (st : DiscoveryState) (now : Int)
        (url : String),
        (∀ pr ∈ st.relayRecommendations, pr.1 = url →
          recTotal pr.2 < cfg.minFolloweeRecommendations) →
        url ∉ (getRecommendedRelays cfg st now).map (fun rec => rec.url)) ∧
    (∀ (cfg : StandardRelayDiscoveryConfig) (st : DiscoveryState) (now : Int)
        (url : String) (r : RelayRec),
        listGet st.relayRecommendations url = some r →
        cfg.minFolloweeRecommendations ≤ recTotal r →
        now - r.lastSeen ≤ relayMaxAge cfg →
        (qualifyingEntries cfg st now).length ≤ cfg.maxRelays →
        url ∈ (getRecommendedRelays cfg st now).map (fun rec => rec.url)) := by
  constructor
  · intro cfg st now url hbelow hmem
    obtain ⟨rec, hrec, hrecurl⟩ := List.mem_map.mp hmem
    obtain ⟨r, hmem2, -, hcnt⟩ := recommended_mem hrec
    rw [hrecurl] at hmem2
    exact absurd hcnt (not_le.mpr (hbelow (url, r) hmem2 rfl))
  · intro cfg st now url r hget hcnt hfresh hfit
    have hq : (url, r) ∈ qualifyingEntries cfg st now := by
      apply List.mem_filter.mpr
      refine ⟨listGet_mem hget, ?_⟩
      rw [Bool.and_eq_true, decide_eq_true_eq, decide_eq_true_eq]
      exact ⟨hfresh, hcnt⟩
    have hmapped : scoreRelay cfg (url, r)
        ∈ (qualifyingEntries cfg st now).map (scoreRelay cfg) :=
      List.mem_map.mpr ⟨(url, r), hq, rfl⟩
    unfold getRecommendedRelays
    have hsorted : scoreRelay cfg (url, r)
        ∈ stableSort (fun a b : RecommendedRelay => decide (b.score ≤ a.score))
          ((qualifyingEntries cfg st now).map (scoreRelay cfg)) :=
      (mem_stableSort _ _ _).mpr hmapped
    have hlen : (stableSort (fun a b : RecommendedRelay => decide (b.score ≤ a.score))
        ((qualifyingEntries cfg st now).map (scoreRelay cfg))).length ≤ cfg.maxRelays := by
      rw [length_stableSort, List.length_map]
      exact hfit
    rw [List.take_of_length_le hlen]
    exact List.mem_map.mpr ⟨scoreRelay cfg (url, r), hsorted, rfl⟩

/-- C1 witness: one read-only endorsement (count 1) stays hidden; a second
distinct author's read endorsement (count 2) makes the relay appear. -/
theorem claim_promotion_threshold_amended_witness :
    "wss://relay.one" ∉ (getRecommendedRelays defaultStandardConfig stAliceRead
        1000000).map (fun rec => rec.url) ∧
    "wss://relay.one" ∈ (getRecommendedRelays defaultStandardConfig stAliceBobRead
        1100000).map (fun rec => rec.url) :=
  ⟨claim_promotion_threshold_amended.1 defaultStandardConfig stAliceRead 1000000
      "wss://relay.one" (by decide),
   claim_promotion_threshold_amended.2 defaultStandardConfig stAliceBobRead 1100000
      "wss://relay.one" ⟨["alice", "bob"], [], 1100000, [RelaySource.nip65]⟩
      (by decide) (by decide) (by decide) (by decide)⟩

/-- C3 counterexample: after the announcement from author a and the hint
note from author b, the single ranked entry for `wss://relay.example` has
`sources = [nip65]` — the hint source the claim requires is absent (the
count 2 stems from author a alone). -/
theorem claim_promotion_scenario_cx :
    getRecommendedRelays defaultStandardConfig stAfterHint 1000000
      = [⟨"wss://relay.example", 1, 1, 2, 1000000, [RelaySource.nip65], 7⟩] ∧
    (getRecommendedRelays defaultStandardConfig stAfterHint 1000000).map
      (fun rec => decide (RelaySource.nip19 ∈ rec.sources)) = [false] := by
  decide

/-- C3 amended: the scenario yields exactly one entry, keyed by the
normalized `wss://relay.example`, with `totalRecs = 2` — both counts
contributed by author a's unmarked announcement — and `sources` holding
the announcement source only: NIP-19 entity tokens consist of `[a-z0-9]`
characters after their prefix, so the hint extractor can never find a
`ws://`/`wss://` URL inside one, and author b's note leaves the state
unchanged. -/
theorem claim_promotion_scenario_amended :
    extractNip19RelayHints evHintNote.content = [] ∧
    stAfterHint = stAnnounceExample ∧
    getRecommendedRelays defaultStandardConfig stAfterHint 1000000
      = [⟨"wss://relay.example", 1, 1, 2, 1000000, [RelaySource.nip65], 7⟩] := by
  decide

end Tagstr





